import Mathlib

/-!
Verification of the VDF (Valve Data Format) parser/writer core and the
steam config helpers of the `gsca` repository.

The embedding models:
* `vdf/parser.go`: `Node`, `Parser.Parse`, `Parser.parseObject`,
  `Parser.parseQuotedParts`, `FindNode`, `SetValue`, `Write`;
* `steam/config.go`: `ResolveGameIDs`, `FilterGameIDs`.

The input stream (`bufio.Scanner`) is modelled as the list of lines it
delivers; a non-failing stream delivers its lines and `scanner.Err()` is
nil, so `Parse`'s error component (which is exactly `scanner.Err()`) is
constantly nil and the embedding returns the tree directly.  `parseObject`'s
error result in the source can only be a propagated scanner error, so it is
likewise absent here.

Machine-level caveats of the model, each noted at its definition:
`strings.TrimSpace` is modelled for ASCII whitespace; Go iterates bytes in
`parseQuotedParts` but a `"` byte never occurs inside a multi-byte UTF-8
rune, so char-level iteration is faithful.
-/

/-- The VDF tree node, from `vdf/parser.go`:
`type Node struct { Key string; Value string; Children []*Node; IsObject bool }`. -/
structure Node where
  key : String
  value : String
  children : List Node
  isObject : Bool

/-- ASCII whitespace recognised by Go's `unicode.IsSpace` (the model restricts
to the ASCII range; the config files handled by the program are ASCII). -/
def isSpaceGo (c : Char) : Bool :=
  c = ' ' ∨ c = '\t' ∨ c = '\n' ∨ c = '\x0b' ∨ c = '\x0c' ∨ c = '\r'

/-- Model of `strings.TrimSpace`: drop leading and trailing whitespace. -/
def trimGo (s : String) : String :=
  ⟨((s.data.dropWhile isSpaceGo).reverse.dropWhile isSpaceGo).reverse⟩

/-- Model of `strings.HasPrefix`. -/
def hasPrefixGo (s pre : String) : Bool :=
  pre.data.isPrefixOf s.data

/-- Loop body of `Parser.parseQuotedParts`: walk the characters, toggling
`inQuotes` at each `"`; characters seen while inside quotes accumulate into
`current`, which is emitted when the closing quote is reached. -/
def pqpAux : List Char → Bool → List Char → List String
  | [], _, _ => []
  | c :: cs, inQuotes, current =>
    if c = '"' then
      if inQuotes then ⟨current⟩ :: pqpAux cs false []
      else pqpAux cs true current
    else if inQuotes then pqpAux cs inQuotes (current ++ [c])
    else pqpAux cs inQuotes current

/-- `Parser.parseQuotedParts`: the quoted tokens of a line, in order. -/
def parseQuotedParts (line : String) : List String :=
  pqpAux line.data false []

/-- `Parser.parseObject`, with an explicit fuel argument for structural
recursion.  Returns the children accumulated until the closing `}` (or end
of input) together with the lines remaining after the consumed ones.  The
fuel only needs to dominate the number of lines (`parseObjF_irrel`); the
wrapper `parseObj` instantiates it with the line count. -/
def parseObjF : Nat → List String → List Node × List String
  | 0, ls => ([], ls)
  | _ + 1, [] => ([], [])
  | f + 1, l :: rest =>
    let line := trimGo l
    if line = "" ∨ hasPrefixGo line "//" = true then parseObjF f rest
    else if line = "\x7d" then ([], rest)
    else if line = "\x7b" then parseObjF f rest
    else
      match parseQuotedParts line with
      | [] => parseObjF f rest
      | [key] =>
        match rest with
        | [] => ([], [])
        | next :: rest2 =>
          if trimGo next = "\x7b" then
            let pr := parseObjF f rest2
            let pr2 := parseObjF f pr.2
            (⟨key, "", pr.1, true⟩ :: pr2.1, pr2.2)
          else
            let pr := parseObjF f rest2
            (⟨key, "", [], false⟩ :: pr.1, pr.2)
      | [key, v] =>
        let pr := parseObjF f rest
        (⟨key, v, [], false⟩ :: pr.1, pr.2)
      | key :: _ :: _ :: _ =>
        let pr := parseObjF f rest
        (⟨key, "", [], false⟩ :: pr.1, pr.2)

/-- Top-level loop of `Parser.Parse`, fuelled like `parseObjF`.  Differences
from `parseObjF`, as in the source: a top-level `}` ends the whole parse
(remaining lines are never read), and a lone key at end of input produces no
node. -/
def parseTopF : Nat → List String → List Node
  | 0, _ => []
  | _ + 1, [] => []
  | f + 1, l :: rest =>
    let line := trimGo l
    if line = "" ∨ hasPrefixGo line "//" = true then parseTopF f rest
    else if line = "\x7b" then parseTopF f rest
    else if line = "\x7d" then []
    else
      match parseQuotedParts line with
      | [] => parseTopF f rest
      | [key] =>
        match rest with
        | [] => []
        | next :: rest2 =>
          if trimGo next = "\x7b" then
            let pr := parseObjF f rest2
            ⟨key, "", pr.1, true⟩ :: parseTopF f pr.2
          else
            ⟨key, "", [], false⟩ :: parseTopF f rest2
      | [key, v] => ⟨key, v, [], false⟩ :: parseTopF f rest
      | key :: _ :: _ :: _ => ⟨key, "", [], false⟩ :: parseTopF f rest

/-- `Parser.parseObject` on a list of input lines. -/
def parseObj (ls : List String) : List Node × List String :=
  parseObjF ls.length ls

/-- The children accumulated by `Parser.Parse`'s main loop. -/
def parseTop (ls : List String) : List Node :=
  parseTopF ls.length ls

/-- `Parser.Parse`: the root node (`&Node{IsObject: true}`) with the
children collected by the main loop. -/
def parse (lines : List String) : Node :=
  ⟨"", "", parseTop lines, true⟩

example : parse [] = ⟨"", "", [], true⟩ := rfl

example :
    parse ["\"a\"", "\x7b", "\"b\"\t\"c\"", "\x7d"] =
      ⟨"", "", [⟨"a", "", [⟨"b", "c", [], false⟩], true⟩], true⟩ := rfl

example :
    parse ["\"a\"", "", "\x7b", "\"b\" \"c\"", "\x7d"] =
      ⟨"", "", [⟨"a", "", [], false⟩, ⟨"b", "c", [], false⟩], true⟩ := rfl

/-! ### `steam/config.go`: `ResolveGameIDs` and `FilterGameIDs` -/

/-- The numeric test inside `ResolveGameIDs`: `isNumeric` starts true and is
cleared on the first rune outside `'0'..'9'`. -/
def isNumericGo (item : String) : Bool :=
  item.data.all fun ch => decide ('0' ≤ ch) && decide (ch ≤ '9')

/-- Loop of `ResolveGameIDs`: each item goes to `resolved` when
`isNumeric && len(item) > 0`, otherwise to `notFound`, both in input order. -/
def resolveLoop : List String → List String × List String
  | [] => ([], [])
  | item :: rest =>
    let r := resolveLoop rest
    if isNumericGo item && decide (0 < item.length) then (item :: r.1, r.2)
    else (r.1, item :: r.2)

/-- `ResolveGameIDs(items, mapping)`; the `mapping` parameter is unused in
the source ("Game names are no longer supported"). -/
def resolveGameIDs (items : List String) (mapping : List (String × String)) :
    List String × List String :=
  resolveLoop items

/-- Membership in the `map[string]bool` set built from a list in
`FilterGameIDs` (insertion of duplicates is idempotent, so membership is
list containment). -/
def inSetGo (l : List String) (id : String) : Bool :=
  l.contains id

/-- The accumulation loop of `FilterGameIDs`: keep the ids satisfying `p`,
in order. -/
def filterLoop (p : String → Bool) : List String → List String
  | [] => []
  | id :: rest => if p id then id :: filterLoop p rest else filterLoop p rest

/-- `FilterGameIDs(allGameIDs, allowList, denyList)`. -/
def filterGameIDs (allGameIDs allowList denyList : List String) : List String :=
  if 0 < allowList.length then
    filterLoop (fun id => inSetGo allowList id) allGameIDs
  else if 0 < denyList.length then
    filterLoop (fun id => !inSetGo denyList id) allGameIDs
  else allGameIDs

theorem filterLoop_eq_filter (p : String → Bool) :
    ∀ l : List String, filterLoop p l = l.filter p := by
  intro l
  induction l with
  | nil => rfl
  | cons x xs ih =>
    by_cases h : p x
    · simp [filterLoop, h, List.filter, ih]
    · simp [filterLoop, h, List.filter, ih]

theorem resolveLoop_eq_filter :
    ∀ l : List String,
      resolveLoop l =
        (l.filter (fun i => isNumericGo i && decide (0 < i.length)),
         l.filter (fun i => !(isNumericGo i && decide (0 < i.length)))) := by
  intro l
  induction l with
  | nil => rfl
  | cons x xs ih =>
    cases hN : isNumericGo x with
    | false => simp [resolveLoop, hN, List.filter_cons, ih]
    | true =>
      cases hL : decide (0 < x.length) with
      | false =>
        have hL2 : x.length = 0 := by
          have := of_decide_eq_false hL
          omega
        simp [resolveLoop, hN, hL, hL2, List.filter_cons, ih]
      | true =>
        have hL2 : ¬ x.length = 0 := by
          have := of_decide_eq_true hL
          omega
        simp [resolveLoop, hN, hL, hL2, List.filter_cons, ih]

/-- C8: `FilterGameIDs` keeps the allow-listed ids (in order) when the allow
list is non-empty, otherwise drops the deny-listed ids (in order) when the
deny list is non-empty, otherwise returns the input unchanged; the result is
always a subsequence of the input, allow takes precedence, and the spec's
three concrete examples hold. -/
theorem filterGameIDs_spec (allGameIDs allowList denyList : List String) :
    (allowList ≠ [] →
      filterGameIDs allGameIDs allowList denyList =
        allGameIDs.filter (fun id => allowList.contains id)) ∧
    (allowList = [] → denyList ≠ [] →
      filterGameIDs allGameIDs allowList denyList =
        allGameIDs.filter (fun id => !denyList.contains id)) ∧
    (allowList = [] → denyList = [] →
      filterGameIDs allGameIDs allowList denyList = allGameIDs) ∧
    (filterGameIDs allGameIDs allowList denyList).Sublist allGameIDs ∧
    filterGameIDs ["100", "200", "300", "400", "500"] ["100", "300"] [] =
      ["100", "300"] ∧
    filterGameIDs ["100", "200", "300", "400", "500"] [] ["200", "400"] =
      ["100", "300", "500"] := by
  refine ⟨?_, ?_, ?_, ?_, rfl, rfl⟩
  · intro h
    have hl : 0 < allowList.length := List.length_pos.mpr h
    simp [filterGameIDs, hl, filterLoop_eq_filter, inSetGo]
  · intro h h2
    have hl : 0 < denyList.length := List.length_pos.mpr h2
    simp [filterGameIDs, h, hl, filterLoop_eq_filter, inSetGo]
  · intro h h2
    simp [filterGameIDs, h, h2]
  · unfold filterGameIDs
    split
    · rw [filterLoop_eq_filter]; exact List.filter_sublist _
    · split
      · rw [filterLoop_eq_filter]; exact List.filter_sublist _
      · exact List.Sublist.refl _

/-- Closed witness for `filterGameIDs_spec`: its hypotheses are discharged at
the spec's own example inputs. -/
theorem filterGameIDs_spec_witness :
    filterGameIDs ["100", "200", "300", "400", "500"] ["100", "300"] [] =
      (["100", "200", "300", "400", "500"] :
        List String).filter (fun id => (["100", "300"] :
        List String).contains id) ∧
    filterGameIDs ["100", "200", "300", "400", "500"] [] ["200", "400"] =
      (["100", "200", "300", "400", "500"] :
        List String).filter (fun id => !(["200", "400"] :
        List String).contains id) ∧
    filterGameIDs ["100", "200", "300"] [] [] = ["100", "200", "300"] :=
  ⟨(filterGameIDs_spec ["100", "200", "300", "400", "500"]
      ["100", "300"] []).1 (by decide),
   ((filterGameIDs_spec ["100", "200", "300", "400", "500"]
      [] ["200", "400"]).2.1 rfl (by decide)),
   ((filterGameIDs_spec ["100", "200", "300"] [] []).2.2.1 rfl rfl)⟩

/-- C9: `ResolveGameIDs` classifies an item as valid exactly when it is a
non-empty all-ASCII-digit token; valid items pass through in order, the rest
go to the not-found list in order, and the mapping argument has no effect
(the source ignores it); in particular `"570"` resolves and `"Dota 2"` does
not, for every mapping. -/
theorem resolveGameIDs_spec (items : List String)
    (mapping : List (String × String)) :
    resolveGameIDs items mapping =
      (items.filter (fun i => isNumericGo i && decide (0 < i.length)),
       items.filter (fun i => !(isNumericGo i && decide (0 < i.length)))) ∧
    (∀ mapping2, resolveGameIDs items mapping = resolveGameIDs items mapping2) ∧
    resolveGameIDs ["570", "Dota 2"] mapping = (["570"], ["Dota 2"]) := by
  refine ⟨resolveLoop_eq_filter items, fun _ => rfl, rfl⟩

/-! ### Path resolver: `FindNode` and `SetValue` -/

/-- Accumulating loop of `strings.Split(path, "/")`. -/
def splitSlashAux : List Char → List Char → List String
  | [], cur => [⟨cur.reverse⟩]
  | c :: cs, cur =>
    if c = '/' then ⟨cur.reverse⟩ :: splitSlashAux cs []
    else splitSlashAux cs (c :: cur)

/-- Model of `strings.Split(path, "/")`: the (always non-empty) list of
segments; `""` splits to `[""]`. -/
def splitSlash (path : String) : List String :=
  splitSlashAux path.data []

example : splitSlash "" = [""] := rfl
example : splitSlash "a/b" = ["a", "b"] := rfl
example : splitSlash "a//b" = ["a", "", "b"] := rfl

/-- The inner loop of `FindNode` (and of `SetValue`'s walk): first child
whose key equals `part`, in iteration order. -/
def findChildGo (part : String) : List Node → Option Node
  | [] => none
  | c :: cs => if c.key = part then some c else findChildGo part cs

/-- The walk of `FindNode` over the path segments. -/
def findNodeGo : Node → List String → Option Node
  | current, [] => some current
  | current, part :: rest =>
    match findChildGo part current.children with
    | some child => findNodeGo child rest
    | none => none

/-- `FindNode(root, path)`: `none` models the nil return. -/
def findNode (root : Node) (path : String) : Option Node :=
  findNodeGo root (splitSlash path)

/-- Replace the first child with key `k` by `f` applied to it (keeping its
position), or append `g` when no child has key `k`.  This is the effect of
both child loops in `SetValue`, which mutate the found child in place
through its pointer or append a fresh node. -/
def updFirst (k : String) (f : Node → Node) (g : Node) : List Node → List Node
  | [] => [g]
  | c :: cs => if c.key = k then f c :: cs else c :: updFirst k f g cs

/-- The walk of `SetValue` over the path segments: every segment but the
last walks into (or creates, as `&Node{Key: part, IsObject: true}`, appended
at the end) the first child with that key; the last segment overwrites the
value of the first child with that key in place, or appends
`&Node{Key: finalKey, Value: value}`. -/
def setValueGo : List String → Node → String → Node
  | [], current, _ => current
  | [finalKey], current, value =>
    ⟨current.key, current.value,
      updFirst finalKey (fun c => ⟨c.key, value, c.children, c.isObject⟩)
        ⟨finalKey, value, [], false⟩ current.children,
      current.isObject⟩
  | part :: seg2 :: rest, current, value =>
    ⟨current.key, current.value,
      updFirst part (fun c => setValueGo (seg2 :: rest) c value)
        (setValueGo (seg2 :: rest) ⟨part, "", [], true⟩ value)
        current.children,
      current.isObject⟩

/-- `SetValue(root, path, value)`.  The source's error result is the
constant nil (both return statements return `nil`), so the embedding
returns the updated tree directly. -/
def setValue (root : Node) (path : String) (value : String) : Node :=
  setValueGo (splitSlash path) root value

example :
    setValue ⟨"", "", [], true⟩ "a/b" "1" =
      ⟨"", "", [⟨"a", "", [⟨"b", "1", [], false⟩], true⟩], true⟩ := rfl

/-- The tree built by `SetValue` under a node with no matching children:
one fresh empty object per intermediate segment, then the final leaf. -/
def freshChain : List String → String → Node
  | [], _ => ⟨"", "", [], false⟩
  | [finalKey], value => ⟨finalKey, value, [], false⟩
  | part :: seg2 :: rest, value => ⟨part, "", [freshChain (seg2 :: rest) value], true⟩

theorem updFirst_no_match (k : String) (f : Node → Node) (g : Node) :
    ∀ cs : List Node, (∀ c ∈ cs, c.key ≠ k) → updFirst k f g cs = cs ++ [g] := by
  intro cs h
  induction cs with
  | nil => rfl
  | cons c cs2 ih =>
    have hc : c.key ≠ k := h c (List.mem_cons_self c cs2)
    simp only [updFirst, if_neg hc, List.cons_append, List.cons.injEq, true_and]
    exact ih fun x hx => h x (List.mem_cons_of_mem c hx)

theorem updFirst_found (k : String) (f : Node → Node) (g : Node)
    (pre : List Node) (c : Node) (post : List Node)
    (hpre : ∀ x ∈ pre, x.key ≠ k) (hc : c.key = k) :
    updFirst k f g (pre ++ c :: post) = pre ++ f c :: post := by
  induction pre with
  | nil => simp [updFirst, hc]
  | cons p pre2 ih =>
    have hp : p.key ≠ k := hpre p (List.mem_cons_self p pre2)
    simp only [List.cons_append, updFirst, if_neg hp, List.cons.injEq, true_and]
    exact ih fun x hx => hpre x (List.mem_cons_of_mem p hx)

theorem splitSlashAux_ne_nil : ∀ (cs : List Char) (cur : List Char),
    splitSlashAux cs cur ≠ [] := by
  intro cs
  induction cs with
  | nil => intro cur h; exact List.noConfusion h
  | cons c cs2 ih =>
    intro cur
    by_cases hc : c = '/'
    · simp [splitSlashAux, hc]
    · simp only [splitSlashAux, if_neg hc]
      exact ih _

theorem splitSlash_ne_nil (path : String) : splitSlash path ≠ [] :=
  splitSlashAux_ne_nil _ _

theorem setValueGo_key : ∀ (segs : List String) (t : Node) (v : String),
    (setValueGo segs t v).key = t.key
  | [], _, _ => rfl
  | [_], _, _ => rfl
  | _ :: _ :: _, _, _ => rfl

theorem setValueGo_fresh : ∀ (segs : List String) (hs : segs ≠ [])
    (k val : String) (b : Bool) (v : String),
    setValueGo segs ⟨k, val, [], b⟩ v = ⟨k, val, [freshChain segs v], b⟩
  | [], hs, _, _, _, _ => absurd rfl hs
  | [finalKey], _, k, val, b, v => rfl
  | p :: q :: rest, _, k, val, b, v => by
    have ih := setValueGo_fresh (q :: rest) (List.noConfusion) p "" true v
    simp [setValueGo, updFirst, freshChain, ih]

theorem updFirst_idem (k : String) (f : Node → Node) (g : Node)
    (hfk : ∀ c, (f c).key = c.key) (hff : ∀ c, f (f c) = f c)
    (hgk : g.key = k) (hfg : f g = g) :
    ∀ cs : List Node, updFirst k f g (updFirst k f g cs) = updFirst k f g cs := by
  intro cs
  induction cs with
  | nil => simp [updFirst, hgk, hfg]
  | cons c cs2 ih =>
    by_cases hc : c.key = k
    · simp [updFirst, hc, hfk, hff]
    · simp [updFirst, hc, ih]

theorem setValueGo_idem : ∀ (segs : List String) (t : Node) (v : String),
    setValueGo segs (setValueGo segs t v) v = setValueGo segs t v
  | [], t, v => rfl
  | [finalKey], t, v => by
    obtain ⟨tk, tv, tcs, tb⟩ := t
    simp only [setValueGo]
    rw [updFirst_idem finalKey (fun c => ⟨c.key, v, c.children, c.isObject⟩)
      ⟨finalKey, v, [], false⟩ (fun c => rfl) (fun c => rfl) rfl rfl tcs]
  | p :: q :: rest, t, v => by
    obtain ⟨tk, tv, tcs, tb⟩ := t
    simp only [setValueGo]
    rw [updFirst_idem p (fun c => setValueGo (q :: rest) c v)
      (setValueGo (q :: rest) ⟨p, "", [], true⟩ v)
      (fun c => setValueGo_key (q :: rest) c v)
      (fun c => setValueGo_idem (q :: rest) c v)
      (setValueGo_key (q :: rest) ⟨p, "", [], true⟩ v)
      (setValueGo_idem (q :: rest) ⟨p, "", [], true⟩ v) tcs]

/-- C7: `SetValue` is idempotent: applying it twice with the same path and
value gives the same tree as applying it once, for every tree, path and
value. -/
theorem setValue_idempotent (t : Node) (path : String) (v : String) :
    setValue (setValue t path v) path v = setValue t path v :=
  setValueGo_idem (splitSlash path) t v

/-- C2: the upsert behaviour of `SetValue`.  A missing first segment is
created as a fresh empty object appended at the end of the children (with
the rest of the walk happening inside it); at the last segment an existing
first-matching child keeps its position, children and object flag and only
its value is overwritten; a missing last segment appends a fresh leaf at the
end; and under a node with no children the whole path materialises as a
chain of empty objects ending in the leaf. -/
theorem setValue_upsert_spec (t : Node) (path : String) (v : String) :
    (∀ part rest, splitSlash path = part :: rest → rest ≠ [] →
        (∀ c ∈ t.children, c.key ≠ part) →
        setValue t path v =
          ⟨t.key, t.value,
            t.children ++ [setValueGo rest ⟨part, "", [], true⟩ v],
            t.isObject⟩) ∧
    (∀ finalKey, splitSlash path = [finalKey] →
        ∀ pre c post, t.children = pre ++ c :: post →
          (∀ x ∈ pre, x.key ≠ finalKey) → c.key = finalKey →
          setValue t path v =
            ⟨t.key, t.value,
              pre ++ ⟨c.key, v, c.children, c.isObject⟩ :: post,
              t.isObject⟩) ∧
    (∀ finalKey, splitSlash path = [finalKey] →
        (∀ c ∈ t.children, c.key ≠ finalKey) →
        setValue t path v =
          ⟨t.key, t.value, t.children ++ [⟨finalKey, v, [], false⟩],
            t.isObject⟩) ∧
    (t.children = [] →
        setValue t path v =
          ⟨t.key, t.value, [freshChain (splitSlash path) v], t.isObject⟩) := by
  refine ⟨?_, ?_, ?_, ?_⟩
  · intro part rest hsp hrest hnm
    cases rest with
    | nil => exact absurd rfl hrest
    | cons seg2 rest2 =>
      unfold setValue
      rw [hsp]
      simp only [setValueGo]
      rw [updFirst_no_match part _ _ t.children hnm]
  · intro finalKey hsp pre c post hch hpre hc
    unfold setValue
    rw [hsp]
    simp only [setValueGo]
    rw [hch, updFirst_found finalKey _ _ pre c post hpre hc]
  · intro finalKey hsp hnm
    unfold setValue
    rw [hsp]
    simp only [setValueGo]
    rw [updFirst_no_match finalKey _ _ t.children hnm]
  · intro hch
    unfold setValue
    obtain ⟨tk, tv, tcs, tb⟩ := t
    simp only at hch
    subst hch
    exact setValueGo_fresh (splitSlash path) (splitSlash_ne_nil path) tk tv tb v

/-- Closed witness for `setValue_upsert_spec`: all four conjuncts applied at
concrete trees and paths, hypotheses discharged by evaluation. -/
theorem setValue_upsert_spec_witness :
    setValue ⟨"root", "", [⟨"x", "1", [], false⟩], true⟩ "a/b" "7" =
      ⟨"root", "",
        [⟨"x", "1", [], false⟩, ⟨"a", "", [⟨"b", "7", [], false⟩], true⟩],
        true⟩ ∧
    setValue ⟨"r", "", [⟨"k", "old", [⟨"g", "1", [], false⟩], true⟩], true⟩
        "k" "new" =
      ⟨"r", "", [⟨"k", "new", [⟨"g", "1", [], false⟩], true⟩], true⟩ ∧
    setValue ⟨"r", "", [⟨"x", "1", [], false⟩], true⟩ "y" "2" =
      ⟨"r", "", [⟨"x", "1", [], false⟩, ⟨"y", "2", [], false⟩], true⟩ ∧
    setValue ⟨"r", "", [], true⟩ "a/b/c" "3" =
      ⟨"r", "",
        [⟨"a", "", [⟨"b", "", [⟨"c", "3", [], false⟩], true⟩], true⟩],
        true⟩ := by
  refine ⟨?_, ?_, ?_, ?_⟩
  · exact (setValue_upsert_spec ⟨"root", "", [⟨"x", "1", [], false⟩], true⟩
      "a/b" "7").1 "a" ["b"] rfl (by decide) (by decide)
  · exact (setValue_upsert_spec
      ⟨"r", "", [⟨"k", "old", [⟨"g", "1", [], false⟩], true⟩], true⟩
      "k" "new").2.1 "k" rfl [] ⟨"k", "old", [⟨"g", "1", [], false⟩], true⟩ []
      rfl (by intro x hx; exact absurd hx (List.not_mem_nil x)) rfl
  · exact (setValue_upsert_spec ⟨"r", "", [⟨"x", "1", [], false⟩], true⟩
      "y" "2").2.2.1 "y" rfl (by decide)
  · exact (setValue_upsert_spec ⟨"r", "", [], true⟩ "a/b/c" "3").2.2.2 rfl

/-- Modelled from the spec's words for Find: "walk children by exact key
match at each path segment", taking "the first match in iteration order",
returning "a not-found signal if any segment fails to match". -/
def findSpec : Node → List String → Option Node
  | current, [] => some current
  | current, part :: rest =>
    match current.children.find? (fun c => c.key == part) with
    | some child => findSpec child rest
    | none => none

theorem findChildGo_eq_find? (part : String) :
    ∀ cs : List Node, findChildGo part cs = cs.find? (fun c => c.key == part) := by
  intro cs
  induction cs with
  | nil => rfl
  | cons c cs2 ih =>
    by_cases h : c.key = part
    · rw [List.find?_cons_of_pos _ (by simp [h])]
      simp [findChildGo, h]
    · rw [List.find?_cons_of_neg _ (by simp [h])]
      simp [findChildGo, h, ih]

theorem findNodeGo_eq_findSpec : ∀ (segs : List String) (t : Node),
    findNodeGo t segs = findSpec t segs := by
  intro segs
  induction segs with
  | nil => intro t; rfl
  | cons part rest ih =>
    intro t
    simp only [findNodeGo, findSpec, findChildGo_eq_find?]
    cases t.children.find? (fun c => c.key == part) with
    | none => rfl
    | some child => exact ih child

theorem findChildGo_no_match (k : String) :
    ∀ cs : List Node, (∀ c ∈ cs, c.key ≠ k) → findChildGo k cs = none := by
  intro cs h
  induction cs with
  | nil => rfl
  | cons c cs2 ih =>
    simp only [findChildGo, if_neg (h c (List.mem_cons_self c cs2))]
    exact ih fun x hx => h x (List.mem_cons_of_mem c hx)

/-- C3 (amended): `FindNode` splits the path on `/` (the empty path giving
the single empty segment), walks children by exact key match taking the
first match in iteration order, returns the matched node, and returns nil
exactly when some segment has no matching child; on the empty path it
returns nil provided the start node has no child with empty key.  (The
original claim's unconditional "empty path returns nil" fails, see
`findNode_empty_path_finds_node`; the embedding is a pure function, so the
tree is never modified.) -/
theorem findNode_walk_spec (t : Node) (path : String) :
    findNode t path = findSpec t (splitSlash path) ∧
    ((∀ c ∈ t.children, c.key ≠ "") → findNode t "" = none) := by
  constructor
  · exact findNodeGo_eq_findSpec (splitSlash path) t
  · intro h
    show findNodeGo t [""] = none
    simp only [findNodeGo, findChildGo_no_match "" t.children h]

/-- Closed witness for `findNode_walk_spec` at a concrete tree, with the
empty-key hypothesis discharged by evaluation. -/
theorem findNode_walk_spec_witness :
    findNode ⟨"", "", [⟨"a", "1", [], false⟩], true⟩ "a" =
      findSpec ⟨"", "", [⟨"a", "1", [], false⟩], true⟩ (splitSlash "a") ∧
    findNode ⟨"", "", [⟨"a", "1", [], false⟩], true⟩ "" = none :=
  ⟨(findNode_walk_spec ⟨"", "", [⟨"a", "1", [], false⟩], true⟩ "a").1,
   (findNode_walk_spec ⟨"", "", [⟨"a", "1", [], false⟩], true⟩ "a").2
     (by decide)⟩

/-- C3 counterexample: on the tree parsed from the single line `"" "x"`
(a leaf with empty key), `FindNode` with the **empty path** returns that
leaf, not nil: the code splits `""` into the single segment `""` and looks
it up like any other key, so "the path is the empty string implies nil" is
false. -/
theorem findNode_empty_path_finds_node :
    findNode (parse ["\"\" \"x\""]) "" = some ⟨"", "x", [], false⟩ ∧
    findNode (parse ["\"\" \"x\""]) "" ≠ none :=
  ⟨rfl, fun h => Option.noConfusion h⟩

/-! ### Fuel bookkeeping for the parser -/

theorem parseObjF_shrink : ∀ (f : Nat) (ls : List String),
    (parseObjF f ls).2.length ≤ ls.length := by
  intro f
  induction f with
  | zero => intro ls; simp [parseObjF]
  | succ f ih =>
    intro ls
    cases ls with
    | nil => simp [parseObjF]
    | cons l rest =>
      by_cases h1 : trimGo l = "" ∨ hasPrefixGo (trimGo l) "//" = true
      · simp only [parseObjF, if_pos h1, List.length_cons]
        exact Nat.le_succ_of_le (ih rest)
      · by_cases h2 : trimGo l = "\x7d"
        · simp only [parseObjF, if_neg h1, if_pos h2, List.length_cons]
          omega
        · by_cases h3 : trimGo l = "\x7b"
          · simp only [parseObjF, if_neg h1, if_neg h2, if_pos h3,
              List.length_cons]
            exact Nat.le_succ_of_le (ih rest)
          · rcases hq : parseQuotedParts (trimGo l) with _ | ⟨k, _ | ⟨v, tl⟩⟩
            · simp only [parseObjF, if_neg h1, if_neg h2, if_neg h3, hq,
                List.length_cons]
              exact Nat.le_succ_of_le (ih rest)
            · cases rest with
              | nil =>
                simp [parseObjF, if_neg h1, if_neg h2, if_neg h3, hq]
              | cons next rest2 =>
                by_cases h4 : trimGo next = "\x7b"
                · simp only [parseObjF, if_neg h1, if_neg h2, if_neg h3, hq,
                    if_pos h4, List.length_cons]
                  have a := ih rest2
                  have b := ih (parseObjF f rest2).2
                  omega
                · simp only [parseObjF, if_neg h1, if_neg h2, if_neg h3, hq,
                    if_neg h4, List.length_cons]
                  have a := ih rest2
                  omega
            · cases tl with
              | nil =>
                simp only [parseObjF, if_neg h1, if_neg h2, if_neg h3, hq,
                  List.length_cons]
                exact Nat.le_succ_of_le (ih rest)
              | cons w tl2 =>
                simp only [parseObjF, if_neg h1, if_neg h2, if_neg h3, hq,
                  List.length_cons]
                exact Nat.le_succ_of_le (ih rest)

theorem parseObjF_mono : ∀ (f : Nat) (ls : List String), ls.length ≤ f →
    parseObjF (f + 1) ls = parseObjF f ls := by
  intro f
  induction f with
  | zero =>
    intro ls h
    have : ls = [] := List.eq_nil_of_length_eq_zero (Nat.le_zero.mp h)
    subst this
    rfl
  | succ f ih =>
    intro ls h
    cases ls with
    | nil => rfl
    | cons l rest =>
      have hr : rest.length ≤ f := by
        simp only [List.length_cons] at h; omega
      by_cases h1 : trimGo l = "" ∨ hasPrefixGo (trimGo l) "//" = true
      · simp only [parseObjF, if_pos h1]
        exact ih rest hr
      · by_cases h2 : trimGo l = "\x7d"
        · simp only [parseObjF, if_neg h1, if_pos h2]
        · by_cases h3 : trimGo l = "\x7b"
          · simp only [parseObjF, if_neg h1, if_neg h2, if_pos h3]
            exact ih rest hr
          · rcases hq : parseQuotedParts (trimGo l) with _ | ⟨k, _ | ⟨v, tl⟩⟩
            · simp only [parseObjF, if_neg h1, if_neg h2, if_neg h3, hq]
              exact ih rest hr
            · cases rest with
              | nil => simp only [parseObjF, if_neg h1, if_neg h2, if_neg h3, hq]
              | cons next rest2 =>
                have hr2 : rest2.length ≤ f := by
                  simp only [List.length_cons] at hr; omega
                by_cases h4 : trimGo next = "\x7b"
                · simp only [parseObjF, if_neg h1, if_neg h2, if_neg h3, hq,
                    if_pos h4]
                  rw [ih rest2 hr2]
                  rw [ih (parseObjF f rest2).2
                    (le_trans (parseObjF_shrink f rest2) hr2)]
                · simp only [parseObjF, if_neg h1, if_neg h2, if_neg h3, hq,
                    if_neg h4]
                  rw [ih rest2 hr2]
            · cases tl with
              | nil =>
                simp only [parseObjF, if_neg h1, if_neg h2, if_neg h3, hq]
                rw [ih rest hr]
              | cons w tl2 =>
                simp only [parseObjF, if_neg h1, if_neg h2, if_neg h3, hq]
                rw [ih rest hr]

theorem parseObjF_add : ∀ (k : Nat) (ls : List String),
    parseObjF (ls.length + k) ls = parseObjF ls.length ls := by
  intro k
  induction k with
  | zero => intro ls; rfl
  | succ k ih =>
    intro ls
    rw [show ls.length + (k + 1) = (ls.length + k) + 1 from rfl,
      parseObjF_mono (ls.length + k) ls (Nat.le_add_right _ _), ih]

theorem parseObjF_irrel (f g : Nat) (ls : List String)
    (hf : ls.length ≤ f) (hg : ls.length ≤ g) :
    parseObjF f ls = parseObjF g ls := by
  obtain ⟨a, rfl⟩ : ∃ a, f = ls.length + a := ⟨f - ls.length, by omega⟩
  obtain ⟨b, rfl⟩ : ∃ b, g = ls.length + b := ⟨g - ls.length, by omega⟩
  rw [parseObjF_add, parseObjF_add]

theorem parseObj_shrink (ls : List String) :
    (parseObj ls).2.length ≤ ls.length :=
  parseObjF_shrink ls.length ls

theorem parseTopF_mono : ∀ (f : Nat) (ls : List String), ls.length ≤ f →
    parseTopF (f + 1) ls = parseTopF f ls := by
  intro f
  induction f with
  | zero =>
    intro ls h
    have : ls = [] := List.eq_nil_of_length_eq_zero (Nat.le_zero.mp h)
    subst this
    rfl
  | succ f ih =>
    intro ls h
    cases ls with
    | nil => rfl
    | cons l rest =>
      have hr : rest.length ≤ f := by
        simp only [List.length_cons] at h; omega
      by_cases h1 : trimGo l = "" ∨ hasPrefixGo (trimGo l) "//" = true
      · simp only [parseTopF, if_pos h1]
        exact ih rest hr
      · by_cases h2 : trimGo l = "\x7b"
        · simp only [parseTopF, if_neg h1, if_pos h2]
          exact ih rest hr
        · by_cases h3 : trimGo l = "\x7d"
          · simp only [parseTopF, if_neg h1, if_neg h2, if_pos h3]
          · rcases hq : parseQuotedParts (trimGo l) with _ | ⟨k, _ | ⟨v, tl⟩⟩
            · simp only [parseTopF, if_neg h1, if_neg h2, if_neg h3, hq]
              exact ih rest hr
            · cases rest with
              | nil => simp only [parseTopF, if_neg h1, if_neg h2, if_neg h3, hq]
              | cons next rest2 =>
                have hr2 : rest2.length ≤ f := by
                  simp only [List.length_cons] at hr; omega
                by_cases h4 : trimGo next = "\x7b"
                · simp only [parseTopF, if_neg h1, if_neg h2, if_neg h3, hq,
                    if_pos h4]
                  rw [parseObjF_mono f rest2 hr2]
                  rw [ih (parseObjF f rest2).2
                    (le_trans (parseObjF_shrink f rest2) hr2)]
                · simp only [parseTopF, if_neg h1, if_neg h2, if_neg h3, hq,
                    if_neg h4]
                  rw [ih rest2 hr2]
            · cases tl with
              | nil =>
                simp only [parseTopF, if_neg h1, if_neg h2, if_neg h3, hq]
                rw [ih rest hr]
              | cons w tl2 =>
                simp only [parseTopF, if_neg h1, if_neg h2, if_neg h3, hq]
                rw [ih rest hr]

theorem parseTopF_add : ∀ (k : Nat) (ls : List String),
    parseTopF (ls.length + k) ls = parseTopF ls.length ls := by
  intro k
  induction k with
  | zero => intro ls; rfl
  | succ k ih =>
    intro ls
    rw [show ls.length + (k + 1) = (ls.length + k) + 1 from rfl,
      parseTopF_mono (ls.length + k) ls (Nat.le_add_right _ _), ih]

theorem parseTopF_irrel (f g : Nat) (ls : List String)
    (hf : ls.length ≤ f) (hg : ls.length ≤ g) :
    parseTopF f ls = parseTopF g ls := by
  obtain ⟨a, rfl⟩ : ∃ a, f = ls.length + a := ⟨f - ls.length, by omega⟩
  obtain ⟨b, rfl⟩ : ∃ b, g = ls.length + b := ⟨g - ls.length, by omega⟩
  rw [parseTopF_add, parseTopF_add]

/-! ### Step equations for `parseObj` and `parseTop` -/

theorem parseObj_nil : parseObj [] = ([], []) := rfl

theorem parseObj_skip (l : String) (rest : List String)
    (h : trimGo l = "" ∨ hasPrefixGo (trimGo l) "//" = true) :
    parseObj (l :: rest) = parseObj rest := by
  show parseObjF (rest.length + 1) (l :: rest) = parseObjF rest.length rest
  simp only [parseObjF, if_pos h]

theorem parseObj_close (l : String) (rest : List String)
    (h : trimGo l = "\x7d") :
    parseObj (l :: rest) = ([], rest) := by
  have h1 : ¬(trimGo l = "" ∨ hasPrefixGo (trimGo l) "//" = true) := by
    rw [h]; decide
  show parseObjF (rest.length + 1) (l :: rest) = ([], rest)
  simp only [parseObjF, if_neg h1, if_pos h]

theorem parseObj_open (l : String) (rest : List String)
    (h : trimGo l = "\x7b") :
    parseObj (l :: rest) = parseObj rest := by
  have h1 : ¬(trimGo l = "" ∨ hasPrefixGo (trimGo l) "//" = true) := by
    rw [h]; decide
  have h2 : trimGo l ≠ "\x7d" := by rw [h]; decide
  show parseObjF (rest.length + 1) (l :: rest) = parseObjF rest.length rest
  simp only [parseObjF, if_neg h1, if_neg h2, if_pos h]

theorem parseObj_none (l : String) (rest : List String)
    (h1 : ¬(trimGo l = "" ∨ hasPrefixGo (trimGo l) "//" = true))
    (h2 : trimGo l ≠ "\x7d") (h3 : trimGo l ≠ "\x7b")
    (hq : parseQuotedParts (trimGo l) = []) :
    parseObj (l :: rest) = parseObj rest := by
  show parseObjF (rest.length + 1) (l :: rest) = parseObjF rest.length rest
  simp only [parseObjF, if_neg h1, if_neg h2, if_neg h3, hq]

theorem parseObj_key_eof (l : String) (k : String)
    (h1 : ¬(trimGo l = "" ∨ hasPrefixGo (trimGo l) "//" = true))
    (h2 : trimGo l ≠ "\x7d") (h3 : trimGo l ≠ "\x7b")
    (hq : parseQuotedParts (trimGo l) = [k]) :
    parseObj [l] = ([], []) := by
  show parseObjF 1 [l] = ([], [])
  simp only [parseObjF, if_neg h1, if_neg h2, if_neg h3, hq]

theorem parseObj_key_obj (l next : String) (rest2 : List String) (k : String)
    (h1 : ¬(trimGo l = "" ∨ hasPrefixGo (trimGo l) "//" = true))
    (h2 : trimGo l ≠ "\x7d") (h3 : trimGo l ≠ "\x7b")
    (hq : parseQuotedParts (trimGo l) = [k])
    (h4 : trimGo next = "\x7b") :
    parseObj (l :: next :: rest2) =
      (⟨k, "", (parseObj rest2).1, true⟩ :: (parseObj (parseObj rest2).2).1,
        (parseObj (parseObj rest2).2).2) := by
  show parseObjF (rest2.length + 2) (l :: next :: rest2) = _
  simp only [parseObjF, if_neg h1, if_neg h2, if_neg h3, hq, if_pos h4]
  rw [parseObjF_irrel (rest2.length + 1) rest2.length rest2 (by omega) le_rfl]
  rw [parseObjF_irrel (rest2.length + 1) (parseObjF rest2.length rest2).2.length
    (parseObjF rest2.length rest2).2
    (le_trans (parseObjF_shrink _ _) (by omega)) le_rfl]
  rfl

theorem parseObj_key_flat (l next : String) (rest2 : List String) (k : String)
    (h1 : ¬(trimGo l = "" ∨ hasPrefixGo (trimGo l) "//" = true))
    (h2 : trimGo l ≠ "\x7d") (h3 : trimGo l ≠ "\x7b")
    (hq : parseQuotedParts (trimGo l) = [k])
    (h4 : trimGo next ≠ "\x7b") :
    parseObj (l :: next :: rest2) =
      (⟨k, "", [], false⟩ :: (parseObj rest2).1, (parseObj rest2).2) := by
  show parseObjF (rest2.length + 2) (l :: next :: rest2) = _
  simp only [parseObjF, if_neg h1, if_neg h2, if_neg h3, hq, if_neg h4]
  rw [parseObjF_irrel (rest2.length + 1) rest2.length rest2 (by omega) le_rfl]
  rfl

theorem parseObj_kv (l : String) (rest : List String) (k v : String)
    (h1 : ¬(trimGo l = "" ∨ hasPrefixGo (trimGo l) "//" = true))
    (h2 : trimGo l ≠ "\x7d") (h3 : trimGo l ≠ "\x7b")
    (hq : parseQuotedParts (trimGo l) = [k, v]) :
    parseObj (l :: rest) =
      (⟨k, v, [], false⟩ :: (parseObj rest).1, (parseObj rest).2) := by
  show parseObjF (rest.length + 1) (l :: rest) = _
  simp only [parseObjF, if_neg h1, if_neg h2, if_neg h3, hq]
  rfl

theorem parseObj_many (l : String) (rest : List String) (k a b : String)
    (tl : List String)
    (h1 : ¬(trimGo l = "" ∨ hasPrefixGo (trimGo l) "//" = true))
    (h2 : trimGo l ≠ "\x7d") (h3 : trimGo l ≠ "\x7b")
    (hq : parseQuotedParts (trimGo l) = k :: a :: b :: tl) :
    parseObj (l :: rest) =
      (⟨k, "", [], false⟩ :: (parseObj rest).1, (parseObj rest).2) := by
  show parseObjF (rest.length + 1) (l :: rest) = _
  simp only [parseObjF, if_neg h1, if_neg h2, if_neg h3, hq]
  rfl

theorem parseTop_nil : parseTop [] = [] := rfl

theorem parseTop_skip (l : String) (rest : List String)
    (h : trimGo l = "" ∨ hasPrefixGo (trimGo l) "//" = true) :
    parseTop (l :: rest) = parseTop rest := by
  show parseTopF (rest.length + 1) (l :: rest) = parseTopF rest.length rest
  simp only [parseTopF, if_pos h]

theorem parseTop_open (l : String) (rest : List String)
    (h : trimGo l = "\x7b") :
    parseTop (l :: rest) = parseTop rest := by
  have h1 : ¬(trimGo l = "" ∨ hasPrefixGo (trimGo l) "//" = true) := by
    rw [h]; decide
  show parseTopF (rest.length + 1) (l :: rest) = parseTopF rest.length rest
  simp only [parseTopF, if_neg h1, if_pos h]

theorem parseTop_close (l : String) (rest : List String)
    (h : trimGo l = "\x7d") :
    parseTop (l :: rest) = [] := by
  have h1 : ¬(trimGo l = "" ∨ hasPrefixGo (trimGo l) "//" = true) := by
    rw [h]; decide
  have h2 : trimGo l ≠ "\x7b" := by rw [h]; decide
  show parseTopF (rest.length + 1) (l :: rest) = []
  simp only [parseTopF, if_neg h1, if_neg h2, if_pos h]

theorem parseTop_none (l : String) (rest : List String)
    (h1 : ¬(trimGo l = "" ∨ hasPrefixGo (trimGo l) "//" = true))
    (h2 : trimGo l ≠ "\x7b") (h3 : trimGo l ≠ "\x7d")
    (hq : parseQuotedParts (trimGo l) = []) :
    parseTop (l :: rest) = parseTop rest := by
  show parseTopF (rest.length + 1) (l :: rest) = parseTopF rest.length rest
  simp only [parseTopF, if_neg h1, if_neg h2, if_neg h3, hq]

theorem parseTop_key_eof (l : String) (k : String)
    (h1 : ¬(trimGo l = "" ∨ hasPrefixGo (trimGo l) "//" = true))
    (h2 : trimGo l ≠ "\x7b") (h3 : trimGo l ≠ "\x7d")
    (hq : parseQuotedParts (trimGo l) = [k]) :
    parseTop [l] = [] := by
  show parseTopF 1 [l] = []
  simp only [parseTopF, if_neg h1, if_neg h2, if_neg h3, hq]

theorem parseTop_key_obj (l next : String) (rest2 : List String) (k : String)
    (h1 : ¬(trimGo l = "" ∨ hasPrefixGo (trimGo l) "//" = true))
    (h2 : trimGo l ≠ "\x7b") (h3 : trimGo l ≠ "\x7d")
    (hq : parseQuotedParts (trimGo l) = [k])
    (h4 : trimGo next = "\x7b") :
    parseTop (l :: next :: rest2) =
      ⟨k, "", (parseObj rest2).1, true⟩ :: parseTop (parseObj rest2).2 := by
  show parseTopF (rest2.length + 2) (l :: next :: rest2) = _
  simp only [parseTopF, if_neg h1, if_neg h2, if_neg h3, hq, if_pos h4]
  rw [parseObjF_irrel (rest2.length + 1) rest2.length rest2 (by omega) le_rfl]
  rw [parseTopF_irrel (rest2.length + 1) (parseObjF rest2.length rest2).2.length
    (parseObjF rest2.length rest2).2
    (le_trans (parseObjF_shrink _ _) (by omega)) le_rfl]
  rfl

theorem parseTop_key_flat (l next : String) (rest2 : List String) (k : String)
    (h1 : ¬(trimGo l = "" ∨ hasPrefixGo (trimGo l) "//" = true))
    (h2 : trimGo l ≠ "\x7b") (h3 : trimGo l ≠ "\x7d")
    (hq : parseQuotedParts (trimGo l) = [k])
    (h4 : trimGo next ≠ "\x7b") :
    parseTop (l :: next :: rest2) = ⟨k, "", [], false⟩ :: parseTop rest2 := by
  show parseTopF (rest2.length + 2) (l :: next :: rest2) = _
  simp only [parseTopF, if_neg h1, if_neg h2, if_neg h3, hq, if_neg h4]
  rw [parseTopF_irrel (rest2.length + 1) rest2.length rest2 (by omega) le_rfl]
  rfl

theorem parseTop_kv (l : String) (rest : List String) (k v : String)
    (h1 : ¬(trimGo l = "" ∨ hasPrefixGo (trimGo l) "//" = true))
    (h2 : trimGo l ≠ "\x7b") (h3 : trimGo l ≠ "\x7d")
    (hq : parseQuotedParts (trimGo l) = [k, v]) :
    parseTop (l :: rest) = ⟨k, v, [], false⟩ :: parseTop rest := by
  show parseTopF (rest.length + 1) (l :: rest) = _
  simp only [parseTopF, if_neg h1, if_neg h2, if_neg h3, hq]
  rfl

theorem parseTop_many (l : String) (rest : List String) (k a b : String)
    (tl : List String)
    (h1 : ¬(trimGo l = "" ∨ hasPrefixGo (trimGo l) "//" = true))
    (h2 : trimGo l ≠ "\x7b") (h3 : trimGo l ≠ "\x7d")
    (hq : parseQuotedParts (trimGo l) = k :: a :: b :: tl) :
    parseTop (l :: rest) = ⟨k, "", [], false⟩ :: parseTop rest := by
  show parseTopF (rest.length + 1) (l :: rest) = _
  simp only [parseTopF, if_neg h1, if_neg h2, if_neg h3, hq]
  rfl

/-! ### Invariants of parsed trees -/

theorem pqpAux_noQuote : ∀ (cs : List Char) (b : Bool) (cur : List Char),
    '"' ∉ cur → ∀ t ∈ pqpAux cs b cur, '"' ∉ t.data := by
  intro cs
  induction cs with
  | nil =>
    intro b cur hcur t ht
    exact absurd ht (List.not_mem_nil t)
  | cons c cs2 ih =>
    intro b cur hcur t ht
    by_cases hc : c = '"'
    · subst hc
      cases b with
      | true =>
        simp only [pqpAux, if_pos rfl] at ht
        rcases List.mem_cons.mp ht with rfl | ht2
        · exact hcur
        · exact ih false [] (List.not_mem_nil _) t ht2
      | false =>
        simp only [pqpAux, if_pos rfl] at ht
        exact ih true cur hcur t ht
    · cases b with
      | true =>
        simp only [pqpAux, if_neg hc] at ht
        refine ih true (cur ++ [c]) ?_ t ht
        intro hmem
        rcases List.mem_append.mp hmem with hmem2 | hmem2
        · exact hcur hmem2
        · rcases List.mem_singleton.mp hmem2 with rfl
          exact hc rfl
      | false =>
        simp only [pqpAux, if_neg hc] at ht
        exact ih false cur hcur t ht

theorem parseQuotedParts_noQuote (s : String) :
    ∀ t ∈ parseQuotedParts s, '"' ∉ t.data :=
  pqpAux_noQuote s.data false [] (List.not_mem_nil _)

/-- Round-trippable trees: exactly the shapes `Parse` can produce below the
root.  Leaves carry no children and objects carry the empty value, and no
key or value contains a quote character (they were extracted from between
quotes). -/
inductive RT : Node → Prop where
  | leaf (k v : String) (hk : '"' ∉ k.data) (hv : '"' ∉ v.data) :
      RT ⟨k, v, [], false⟩
  | obj (k : String) (cs : List Node) (hk : '"' ∉ k.data)
      (hcs : ∀ c ∈ cs, RT c) : RT ⟨k, "", cs, true⟩

theorem parseObj_RT : ∀ (n : Nat) (ls : List String), ls.length ≤ n →
    ∀ c ∈ (parseObj ls).1, RT c := by
  intro n
  induction n with
  | zero =>
    intro ls h
    have : ls = [] := List.eq_nil_of_length_eq_zero (Nat.le_zero.mp h)
    subst this
    intro c hc
    exact absurd hc (List.not_mem_nil c)
  | succ n ih =>
    intro ls hlen
    cases ls with
    | nil =>
      intro c hc
      exact absurd hc (List.not_mem_nil c)
    | cons l rest =>
      have hr : rest.length ≤ n := by
        simp only [List.length_cons] at hlen; omega
      by_cases h1 : trimGo l = "" ∨ hasPrefixGo (trimGo l) "//" = true
      · rw [parseObj_skip l rest h1]
        exact ih rest hr
      · by_cases h2 : trimGo l = "\x7d"
        · rw [parseObj_close l rest h2]
          intro c hc
          exact absurd hc (List.not_mem_nil c)
        · by_cases h3 : trimGo l = "\x7b"
          · rw [parseObj_open l rest h3]
            exact ih rest hr
          · rcases hq : parseQuotedParts (trimGo l) with _ | ⟨k, _ | ⟨v, tl⟩⟩
            · rw [parseObj_none l rest h1 h2 h3 hq]
              exact ih rest hr
            · have hk : '"' ∉ k.data :=
                parseQuotedParts_noQuote (trimGo l) k
                  (by rw [hq]; exact List.mem_cons_self k [])
              cases rest with
              | nil =>
                rw [parseObj_key_eof l k h1 h2 h3 hq]
                intro c hc
                exact absurd hc (List.not_mem_nil c)
              | cons next rest2 =>
                have hr2 : rest2.length ≤ n := by
                  simp only [List.length_cons] at hr; omega
                by_cases h4 : trimGo next = "\x7b"
                · rw [parseObj_key_obj l next rest2 k h1 h2 h3 hq h4]
                  intro c hc
                  rcases List.mem_cons.mp hc with rfl | hc2
                  · exact RT.obj k _ hk (ih rest2 hr2)
                  · exact ih (parseObj rest2).2
                      (le_trans (parseObj_shrink rest2) hr2) c hc2
                · rw [parseObj_key_flat l next rest2 k h1 h2 h3 hq h4]
                  intro c hc
                  rcases List.mem_cons.mp hc with rfl | hc2
                  · exact RT.leaf k "" hk (by simp)
                  · exact ih rest2 hr2 c hc2
            · cases tl with
              | nil =>
                have hk : '"' ∉ k.data :=
                  parseQuotedParts_noQuote (trimGo l) k
                    (by rw [hq]; exact List.mem_cons_self k [v])
                have hv : '"' ∉ v.data :=
                  parseQuotedParts_noQuote (trimGo l) v
                    (by rw [hq];
                        exact List.mem_cons_of_mem k (List.mem_cons_self v []))
                rw [parseObj_kv l rest k v h1 h2 h3 hq]
                intro c hc
                rcases List.mem_cons.mp hc with rfl | hc2
                · exact RT.leaf k v hk hv
                · exact ih rest hr c hc2
              | cons w tl2 =>
                have hk : '"' ∉ k.data :=
                  parseQuotedParts_noQuote (trimGo l) k
                    (by rw [hq]; exact List.mem_cons_self k _)
                rw [parseObj_many l rest k v w tl2 h1 h2 h3 hq]
                intro c hc
                rcases List.mem_cons.mp hc with rfl | hc2
                · exact RT.leaf k "" hk (by simp)
                · exact ih rest hr c hc2

theorem parseTop_RT : ∀ (n : Nat) (ls : List String), ls.length ≤ n →
    ∀ c ∈ parseTop ls, RT c := by
  intro n
  induction n with
  | zero =>
    intro ls h
    have : ls = [] := List.eq_nil_of_length_eq_zero (Nat.le_zero.mp h)
    subst this
    intro c hc
    exact absurd hc (List.not_mem_nil c)
  | succ n ih =>
    intro ls hlen
    cases ls with
    | nil =>
      intro c hc
      exact absurd hc (List.not_mem_nil c)
    | cons l rest =>
      have hr : rest.length ≤ n := by
        simp only [List.length_cons] at hlen; omega
      by_cases h1 : trimGo l = "" ∨ hasPrefixGo (trimGo l) "//" = true
      · rw [parseTop_skip l rest h1]
        exact ih rest hr
      · by_cases h2 : trimGo l = "\x7b"
        · rw [parseTop_open l rest h2]
          exact ih rest hr
        · by_cases h3 : trimGo l = "\x7d"
          · rw [parseTop_close l rest h3]
            intro c hc
            exact absurd hc (List.not_mem_nil c)
          · rcases hq : parseQuotedParts (trimGo l) with _ | ⟨k, _ | ⟨v, tl⟩⟩
            · rw [parseTop_none l rest h1 h2 h3 hq]
              exact ih rest hr
            · have hk : '"' ∉ k.data :=
                parseQuotedParts_noQuote (trimGo l) k
                  (by rw [hq]; exact List.mem_cons_self k [])
              cases rest with
              | nil =>
                rw [parseTop_key_eof l k h1 h2 h3 hq]
                intro c hc
                exact absurd hc (List.not_mem_nil c)
              | cons next rest2 =>
                have hr2 : rest2.length ≤ n := by
                  simp only [List.length_cons] at hr; omega
                by_cases h4 : trimGo next = "\x7b"
                · rw [parseTop_key_obj l next rest2 k h1 h2 h3 hq h4]
                  intro c hc
                  rcases List.mem_cons.mp hc with rfl | hc2
                  · exact RT.obj k _ hk (parseObj_RT rest2.length rest2 le_rfl)
                  · exact ih (parseObj rest2).2
                      (le_trans (parseObj_shrink rest2) hr2) c hc2
                · rw [parseTop_key_flat l next rest2 k h1 h2 h3 hq h4]
                  intro c hc
                  rcases List.mem_cons.mp hc with rfl | hc2
                  · exact RT.leaf k "" hk (by simp)
                  · exact ih rest2 hr2 c hc2
            · cases tl with
              | nil =>
                have hk : '"' ∉ k.data :=
                  parseQuotedParts_noQuote (trimGo l) k
                    (by rw [hq]; exact List.mem_cons_self k [v])
                have hv : '"' ∉ v.data :=
                  parseQuotedParts_noQuote (trimGo l) v
                    (by rw [hq];
                        exact List.mem_cons_of_mem k (List.mem_cons_self v []))
                rw [parseTop_kv l rest k v h1 h2 h3 hq]
                intro c hc
                rcases List.mem_cons.mp hc with rfl | hc2
                · exact RT.leaf k v hk hv
                · exact ih rest hr c hc2
              | cons w tl2 =>
                have hk : '"' ∉ k.data :=
                  parseQuotedParts_noQuote (trimGo l) k
                    (by rw [hq]; exact List.mem_cons_self k _)
                rw [parseTop_many l rest k v w tl2 h1 h2 h3 hq]
                intro c hc
                rcases List.mem_cons.mp hc with rfl | hc2
                · exact RT.leaf k "" hk (by simp)
                · exact ih rest hr c hc2

theorem parseTop_RT_all (ls : List String) : ∀ c ∈ parseTop ls, RT c :=
  parseTop_RT ls.length ls le_rfl

/-- The leaf-XOR-object shape from the spec's data model: an object node has
empty value, a leaf node has no children, recursively. -/
inductive Good : Node → Prop where
  | mk (k v : String) (cs : List Node) (b : Bool)
      (hobj : b = true → v = "")
      (hleaf : b = false → cs = [])
      (hcs : ∀ c ∈ cs, Good c) : Good ⟨k, v, cs, b⟩

theorem RT_good : ∀ (t : Node), RT t → Good t := by
  intro t h
  induction h with
  | leaf k v hk hv =>
    exact Good.mk k v [] false (fun h2 => Bool.noConfusion h2) (fun _ => rfl)
      (fun c hc => absurd hc (List.not_mem_nil c))
  | obj k cs hk hcs ih =>
    exact Good.mk k "" cs true (fun _ => rfl) (fun h2 => Bool.noConfusion h2) ih

/-- C6 (amended): every node of a tree produced by `Parse` is a leaf XOR an
object: an object node has an empty value and a leaf node has no children,
at every depth.  (The original claim also asserted that the invariant
survives arbitrary `SetValue` sequences, which is false, see
`setValue_breaks_leaf_xor_object`.) -/
theorem parse_leaf_xor_object (lines : List String) : Good (parse lines) :=
  Good.mk "" "" (parseTop lines) true (fun _ => rfl)
    (fun h => Bool.noConfusion h)
    (fun c hc => RT_good c (parseTop_RT_all lines c hc))

/-- C6 counterexample: starting from the empty root (exactly `parse []`),
`SetValue "a/b" "1"` then `SetValue "a" "v"` produces an object node `a`
with non-empty value `"v"` (the final-segment overwrite touches only the
`Value` field of the existing object child), so the leaf-XOR-object
invariant does not survive `SetValue` sequences. -/
theorem setValue_breaks_leaf_xor_object :
    setValue (setValue (parse []) "a/b" "1") "a" "v" =
      ⟨"", "", [⟨"a", "v", [⟨"b", "1", [], false⟩], true⟩], true⟩ ∧
    ¬ Good (setValue (setValue (parse []) "a/b" "1") "a" "v") := by
  refine ⟨rfl, ?_⟩
  intro h
  have h2 : Good ⟨"", "", [⟨"a", "v", [⟨"b", "1", [], false⟩], true⟩], true⟩ :=
    h
  cases h2 with
  | mk k v cs b hobj hleaf hcs =>
    have ha := hcs ⟨"a", "v", [⟨"b", "1", [], false⟩], true⟩
      (List.mem_cons_self _ _)
    cases ha with
    | mk k2 v2 cs2 b2 hobj2 hleaf2 hcs2 =>
      have : "v" = "" := hobj2 rfl
      exact absurd this (by decide)

/-- C4: `Parse` never reports an error for any delivered input: the model of
a non-failing stream makes the error component (`scanner.Err()`) constantly
nil, and `Parse` is total, always returning a root object node with empty
key and value; empty input yields the root with zero children, and the
spec's lenient cases (missing closing brace, stray closing brace, stray
extra braces) all produce trees. -/
theorem parse_never_errors (lines : List String) :
    (parse lines).isObject = true ∧
    (parse lines).key = "" ∧
    (parse lines).value = "" ∧
    (lines = [] → parse lines = ⟨"", "", [], true⟩) ∧
    parse ["\"a\"", "\x7b", "\"b\"\t\"c\""] =
      ⟨"", "", [⟨"a", "", [⟨"b", "c", [], false⟩], true⟩], true⟩ ∧
    parse ["\x7d", "\"x\"\t\"1\""] = ⟨"", "", [], true⟩ ∧
    parse ["\x7b", "\x7b", "\x7d", "\x7d"] = ⟨"", "", [], true⟩ := by
  refine ⟨rfl, rfl, rfl, ?_, rfl, rfl, rfl⟩
  intro h
  subst h
  rfl

/-- Closed witness for `parse_never_errors`: the empty-input hypothesis
discharged at `lines = []`. -/
theorem parse_never_errors_witness : parse [] = ⟨"", "", [], true⟩ :=
  (parse_never_errors []).2.2.2.1 rfl

/-- C10: when a significant line yields exactly one quoted key, the parser
consumes the immediately following raw line just to test it against `{`;
when that line is not `{` (after trimming) it is discarded without
producing any node — whatever its content — and the lone key becomes a
non-object node with empty value; a lone key on the last line of input
produces no node at all. -/
theorem parse_lone_key_consumes_next (l next : String) (rest : List String)
    (k : String)
    (h1 : ¬(trimGo l = "" ∨ hasPrefixGo (trimGo l) "//" = true))
    (h2 : trimGo l ≠ "\x7b") (h3 : trimGo l ≠ "\x7d")
    (hq : parseQuotedParts (trimGo l) = [k])
    (h4 : trimGo next ≠ "\x7b") :
    parseTop (l :: next :: rest) = ⟨k, "", [], false⟩ :: parseTop rest ∧
    parseTop [l] = [] :=
  ⟨parseTop_key_flat l next rest k h1 h2 h3 hq h4,
   parseTop_key_eof l k h1 h2 h3 hq⟩

/-- Closed witness for `parse_lone_key_consumes_next`: the discarded line
`"b" "c"` is itself a well-formed key/value line, yet contributes no node. -/
theorem parse_lone_key_consumes_next_witness :
    parseTop ["\"a\"", "\"b\" \"c\"", "\"d\"\t\"e\""] =
      ⟨"a", "", [], false⟩ :: parseTop ["\"d\"\t\"e\""] ∧
    parseTop ["\"a\""] = [] :=
  parse_lone_key_consumes_next "\"a\"" "\"b\" \"c\"" ["\"d\"\t\"e\""] "a"
    (by decide) (by decide) (by decide) rfl (by decide)

/-- C5 (amended): a significant line carrying exactly one quoted key starts
an object if and only if the **immediately following raw line**, after
trimming, is `{`.  Intervening blank or comment lines do prevent object
formation, because the parser tests the very next line rather than the next
significant line (the original claim's next-significant-line reading fails,
see `parse_blank_before_brace_not_object`). -/
theorem parse_key_object_iff_next_raw_brace (l next : String)
    (rest : List String) (k : String)
    (h1 : ¬(trimGo l = "" ∨ hasPrefixGo (trimGo l) "//" = true))
    (h2 : trimGo l ≠ "\x7b") (h3 : trimGo l ≠ "\x7d")
    (hq : parseQuotedParts (trimGo l) = [k]) :
    parseTop (l :: next :: rest) =
      if trimGo next = "\x7b" then
        ⟨k, "", (parseObj rest).1, true⟩ :: parseTop (parseObj rest).2
      else ⟨k, "", [], false⟩ :: parseTop rest := by
  by_cases h4 : trimGo next = "\x7b"
  · rw [if_pos h4]
    exact parseTop_key_obj l next rest k h1 h2 h3 hq h4
  · rw [if_neg h4]
    exact parseTop_key_flat l next rest k h1 h2 h3 hq h4

/-- Closed witness for `parse_key_object_iff_next_raw_brace`, in both
directions: with `{` on the very next line the key opens an object, and
with a blank line first it does not. -/
theorem parse_key_object_iff_next_raw_brace_witness :
    parseTop ["\"a\"", "\x7b", "\x7d"] = [⟨"a", "", [], true⟩] ∧
    parseTop ["\"a\"", "", "\x7b", "\x7d"] =
      [⟨"a", "", [], false⟩] := by
  constructor
  · rw [parse_key_object_iff_next_raw_brace "\"a\"" "\x7b" ["\x7d"] "a"
      (by decide) (by decide) (by decide) rfl]
    rfl
  · rw [parse_key_object_iff_next_raw_brace "\"a\"" "" ["\x7b", "\x7d"] "a"
      (by decide) (by decide) (by decide) rfl]
    rfl

/-- C5 counterexample: in
`"a"` / blank / `{` / `"b" "c"` / `}` the next **significant** line after
the lone key `"a"` is `{`, yet `"a"` is parsed as a non-object node (the
blank line was consumed by the lookahead), and the would-be body line
becomes a top-level sibling leaf. -/
theorem parse_blank_before_brace_not_object :
    parse ["\"a\"", "", "\x7b", "\"b\" \"c\"", "\x7d"] =
      ⟨"", "", [⟨"a", "", [], false⟩, ⟨"b", "c", [], false⟩], true⟩ ∧
    ((parse ["\"a\"", "", "\x7b", "\"b\" \"c\"", "\x7d"]).children.map
      Node.isObject) = [false, false] :=
  ⟨rfl, rfl⟩

/-! ### The writer (`Write`) and the round-trip property -/

/-- First line of `Write`'s object output: `fmt.Fprintf "%s\"%s\"\n..."`
(indentation, quoted key). -/
def keyLine (d : Nat) (k : String) : String :=
  ⟨List.replicate d '\t' ++ '"' :: (k.data ++ ['"'])⟩

/-- Second line of `Write`'s object output: indentation and `{`. -/
def braceOpenLine (d : Nat) : String :=
  ⟨List.replicate d '\t' ++ ['\x7b']⟩

/-- Closing line of `Write`'s object output: `fmt.Fprintf "%s}\n"`. -/
def braceCloseLine (d : Nat) : String :=
  ⟨List.replicate d '\t' ++ ['\x7d']⟩

/-- `Write`'s leaf output `fmt.Fprintf "%s\"%s\"\t\t\"%s\"\n"`:
indentation, quoted key, two tabs, quoted value. -/
def leafLine (d : Nat) (k v : String) : String :=
  ⟨List.replicate d '\t' ++
    '"' :: ((k.data ++ '"' :: '\t' :: '\t' :: '"' :: v.data) ++ ['"'])⟩

/-- The lines emitted by `Write` for a list of children at indentation `d`
(each `Fprintf` call of the source ends its line with `\n`; the model keeps
the lines themselves). -/
def writeList : Nat → List Node → List String
  | _, [] => []
  | d, c :: cs =>
    (if c.isObject then
      keyLine d c.key :: braceOpenLine d ::
        (writeList (d + 1) c.children ++ [braceCloseLine d])
    else [leafLine d c.key c.value]) ++ writeList d cs
termination_by d cs => sizeOf cs
decreasing_by
  · simp only [List.cons.sizeOf_spec]
    cases c with
    | mk ck cv ccs cb =>
      simp only [Node.mk.sizeOf_spec, Node.children]
      omega
  · simp only [List.cons.sizeOf_spec]
    omega

/-- `Write(w, node, indent)`: only the node's children are emitted. -/
def write (node : Node) (indent : Nat) : List String :=
  writeList indent node.children

theorem dropWhile_replicate_tab : ∀ (d : Nat) (l : List Char),
    (List.replicate d '\t' ++ l).dropWhile isSpaceGo = l.dropWhile isSpaceGo := by
  intro d
  induction d with
  | zero => intro l; rfl
  | succ d ih =>
    intro l
    rw [List.replicate_succ, List.cons_append, List.dropWhile_cons,
      if_pos (by decide)]
    exact ih l

theorem trimGo_wrap (d : Nat) (m : List Char) (a b : Char)
    (ha : isSpaceGo a = false) (hb : isSpaceGo b = false) :
    trimGo ⟨List.replicate d '\t' ++ a :: (m ++ [b])⟩ = ⟨a :: (m ++ [b])⟩ := by
  show (⟨(((List.replicate d '\t' ++ a :: (m ++ [b])).dropWhile
    isSpaceGo).reverse.dropWhile isSpaceGo).reverse⟩ : String) = _
  rw [dropWhile_replicate_tab, List.dropWhile_cons, if_neg (by simp [ha])]
  rw [show (a :: (m ++ [b])).reverse = b :: (m.reverse ++ [a]) from by simp]
  rw [List.dropWhile_cons, if_neg (by simp [hb])]
  congr 1
  simp

theorem trimGo_single (d : Nat) (c : Char) (hc : isSpaceGo c = false) :
    trimGo ⟨List.replicate d '\t' ++ [c]⟩ = ⟨[c]⟩ := by
  show (⟨(((List.replicate d '\t' ++ [c]).dropWhile
    isSpaceGo).reverse.dropWhile isSpaceGo).reverse⟩ : String) = _
  have h1 : [c].dropWhile isSpaceGo = [c] := by
    rw [List.dropWhile_cons, if_neg (by simp [hc])]
  rw [dropWhile_replicate_tab, h1, List.reverse_singleton, h1,
    List.reverse_singleton]

theorem trimGo_keyLine (d : Nat) (k : String) :
    trimGo (keyLine d k) = ⟨'"' :: (k.data ++ ['"'])⟩ :=
  trimGo_wrap d k.data '"' '"' (by decide) (by decide)

theorem trimGo_leafLine (d : Nat) (k v : String) :
    trimGo (leafLine d k v) =
      ⟨'"' :: ((k.data ++ '"' :: '\t' :: '\t' :: '"' :: v.data) ++ ['"'])⟩ :=
  trimGo_wrap d _ '"' '"' (by decide) (by decide)

theorem trimGo_braceOpenLine (d : Nat) : trimGo (braceOpenLine d) = "\x7b" :=
  (trimGo_single d '\x7b' (by decide)).trans rfl

theorem trimGo_braceCloseLine (d : Nat) : trimGo (braceCloseLine d) = "\x7d" :=
  (trimGo_single d '\x7d' (by decide)).trans rfl

theorem quote_head_not_skip (m : List Char) :
    ¬((⟨'"' :: m⟩ : String) = "" ∨
      hasPrefixGo ⟨'"' :: m⟩ "//" = true) := by
  rintro (h | h)
  · exact List.noConfusion (congrArg String.data h)
  · exact Bool.noConfusion h

theorem quote_head_ne_close (m : List Char) :
    (⟨'"' :: m⟩ : String) ≠ "\x7d" := by
  intro h
  have hd := congrArg String.data h
  injection hd with h1 h2
  exact absurd h1 (by decide)

theorem quote_head_ne_open (m : List Char) :
    (⟨'"' :: m⟩ : String) ≠ "\x7b" := by
  intro h
  have hd := congrArg String.data h
  injection hd with h1 h2
  exact absurd h1 (by decide)

theorem pqpAux_inq_append : ∀ (xs rest cur : List Char), '"' ∉ xs →
    pqpAux (xs ++ rest) true cur = pqpAux rest true (cur ++ xs) := by
  intro xs
  induction xs with
  | nil =>
    intro rest cur _
    simp
  | cons x xs2 ih =>
    intro rest cur hxs
    have hx : ¬ x = '"' := fun h => hxs (by rw [h]; exact List.mem_cons_self _ _)
    have hxs2 : '"' ∉ xs2 := fun hm => hxs (List.mem_cons_of_mem x hm)
    rw [List.cons_append]
    show pqpAux (x :: (xs2 ++ rest)) true cur = _
    rw [show pqpAux (x :: (xs2 ++ rest)) true cur =
      pqpAux (xs2 ++ rest) true (cur ++ [x]) from by
        simp only [pqpAux, if_neg hx, if_true]]
    rw [ih rest (cur ++ [x]) hxs2]
    simp

theorem pqp_key (k : String) (hk : '"' ∉ k.data) :
    parseQuotedParts ⟨'"' :: (k.data ++ ['"'])⟩ = [k] := by
  show pqpAux (k.data ++ ['"']) true [] = [k]
  rw [pqpAux_inq_append k.data ['"'] [] hk]
  rfl

theorem pqp_leaf (k v : String) (hk : '"' ∉ k.data) (hv : '"' ∉ v.data) :
    parseQuotedParts
      ⟨'"' :: ((k.data ++ '"' :: '\t' :: '\t' :: '"' :: v.data) ++ ['"'])⟩ =
      [k, v] := by
  show pqpAux ((k.data ++ '"' :: '\t' :: '\t' :: '"' :: v.data) ++ ['"'])
    true [] = [k, v]
  rw [List.append_assoc]
  rw [pqpAux_inq_append k.data _ [] hk]
  show k :: pqpAux (v.data ++ ['"']) true [] = [k, v]
  rw [pqpAux_inq_append v.data _ [] hv]
  rfl

theorem sizeOf_children_lt (c : Node) : sizeOf c.children < sizeOf c := by
  cases c with
  | mk k v cs b =>
    simp only [Node.mk.sizeOf_spec, Node.children]
    omega

theorem RT_inv (c : Node) (h : RT c) :
    (c.children = [] ∧ c.isObject = false ∧
      '"' ∉ c.key.data ∧ '"' ∉ c.value.data) ∨
    (c.value = "" ∧ c.isObject = true ∧
      '"' ∉ c.key.data ∧ ∀ x ∈ c.children, RT x) := by
  cases h with
  | leaf k v hk hv => exact Or.inl ⟨rfl, rfl, hk, hv⟩
  | obj k cs hk hcs => exact Or.inr ⟨rfl, rfl, hk, hcs⟩

theorem parseObj_write : ∀ (cs : List Node), (∀ c ∈ cs, RT c) →
    ∀ (d : Nat) (ls : List String),
    parseObj (writeList d cs ++ ls) = (cs ++ (parseObj ls).1, (parseObj ls).2)
  | [], _, d, ls => by
    simp [writeList, Prod.mk.eta]
  | c :: cs2, hcs, d, ls => by
    have hc := hcs c (List.mem_cons_self c cs2)
    have hcs2 : ∀ x ∈ cs2, RT x := fun x hx => hcs x (List.mem_cons_of_mem c hx)
    rcases RT_inv c hc with ⟨hch, hob, hk, hv⟩ | ⟨hve, hob, hk, hgcs⟩
    · have hcEq : c = ⟨c.key, c.value, [], false⟩ := by
        cases c with
        | mk ck cv ccs cb =>
          rw [show ccs = [] from hch, show cb = false from hob]
      rw [show writeList d (c :: cs2) =
        leafLine d c.key c.value :: writeList d cs2 from by
          simp [writeList, hob]]
      rw [List.cons_append]
      rw [parseObj_kv (leafLine d c.key c.value) (writeList d cs2 ++ ls)
        c.key c.value
        (by rw [trimGo_leafLine]; exact quote_head_not_skip _)
        (by rw [trimGo_leafLine]; exact quote_head_ne_close _)
        (by rw [trimGo_leafLine]; exact quote_head_ne_open _)
        (by rw [trimGo_leafLine]; exact pqp_leaf c.key c.value hk hv)]
      rw [parseObj_write cs2 hcs2 d ls]
      rw [← hcEq]
      simp
    · have hcEq : c = ⟨c.key, "", c.children, true⟩ := by
        cases c with
        | mk ck cv ccs cb =>
          rw [show cv = "" from hve, show cb = true from hob]
      have e1 : writeList d (c :: cs2) ++ ls =
          keyLine d c.key :: braceOpenLine d ::
            (writeList (d + 1) c.children ++
              (braceCloseLine d :: (writeList d cs2 ++ ls))) := by
        simp [writeList, hob, List.append_assoc]
      rw [e1]
      rw [parseObj_key_obj (keyLine d c.key) (braceOpenLine d)
        (writeList (d + 1) c.children ++
          (braceCloseLine d :: (writeList d cs2 ++ ls)))
        c.key
        (by rw [trimGo_keyLine]; exact quote_head_not_skip _)
        (by rw [trimGo_keyLine]; exact quote_head_ne_close _)
        (by rw [trimGo_keyLine]; exact quote_head_ne_open _)
        (by rw [trimGo_keyLine]; exact pqp_key c.key hk)
        (trimGo_braceOpenLine d)]
      have e2 := parseObj_write c.children hgcs (d + 1)
        (braceCloseLine d :: (writeList d cs2 ++ ls))
      rw [parseObj_close (braceCloseLine d) (writeList d cs2 ++ ls)
        (trimGo_braceCloseLine d)] at e2
      simp only [List.append_nil] at e2
      rw [e2]
      rw [parseObj_write cs2 hcs2 d ls]
      rw [← hcEq]
      simp
termination_by cs => sizeOf cs
decreasing_by
  all_goals
    simp only [List.cons.sizeOf_spec]
    have h := sizeOf_children_lt c
    omega


theorem parseTop_write : ∀ (cs : List Node), (∀ c ∈ cs, RT c) →
    ∀ (d : Nat) (ls : List String),
    parseTop (writeList d cs ++ ls) = cs ++ parseTop ls := by
  intro cs
  induction cs with
  | nil =>
    intro _ d ls
    simp [writeList]
  | cons c cs2 ih =>
    intro hcs d ls
    have hc := hcs c (List.mem_cons_self c cs2)
    have hcs2 : ∀ x ∈ cs2, RT x := fun x hx => hcs x (List.mem_cons_of_mem c hx)
    cases hc with
    | leaf k v hk hv =>
      rw [show writeList d (⟨k, v, [], false⟩ :: cs2) =
        leafLine d k v :: writeList d cs2 from by simp [writeList]]
      rw [List.cons_append]
      rw [parseTop_kv (leafLine d k v) (writeList d cs2 ++ ls) k v
        (by rw [trimGo_leafLine]; exact quote_head_not_skip _)
        (by rw [trimGo_leafLine]; exact quote_head_ne_open _)
        (by rw [trimGo_leafLine]; exact quote_head_ne_close _)
        (by rw [trimGo_leafLine]; exact pqp_leaf k v hk hv)]
      rw [ih hcs2 d ls]
      simp
    | obj k gcs hk hgcs =>
      have e1 : writeList d (⟨k, "", gcs, true⟩ :: cs2) ++ ls =
          keyLine d k :: braceOpenLine d ::
            (writeList (d + 1) gcs ++
              (braceCloseLine d :: (writeList d cs2 ++ ls))) := by
        simp [writeList, List.append_assoc]
      rw [e1]
      rw [parseTop_key_obj (keyLine d k) (braceOpenLine d)
        (writeList (d + 1) gcs ++ (braceCloseLine d :: (writeList d cs2 ++ ls)))
        k
        (by rw [trimGo_keyLine]; exact quote_head_not_skip _)
        (by rw [trimGo_keyLine]; exact quote_head_ne_open _)
        (by rw [trimGo_keyLine]; exact quote_head_ne_close _)
        (by rw [trimGo_keyLine]; exact pqp_key k hk)
        (trimGo_braceOpenLine d)]
      have e2 := parseObj_write gcs hgcs (d + 1)
        (braceCloseLine d :: (writeList d cs2 ++ ls))
      rw [parseObj_close (braceCloseLine d) (writeList d cs2 ++ ls)
        (trimGo_braceCloseLine d)] at e2
      simp only [List.append_nil] at e2
      rw [e2]
      rw [ih hcs2 d ls]
      simp

/-- C1: round trip.  Writing any parsed tree at depth 0 and re-parsing the
output reproduces the tree exactly (same keys, values, object flags, and
child order at every node), for every input line list. -/
theorem write_parse_roundtrip (lines : List String) :
    parse (write (parse lines) 0) = parse lines := by
  have h := parseTop_write (parseTop lines) (parseTop_RT_all lines) 0 []
  rw [List.append_nil, parseTop_nil, List.append_nil] at h
  show (⟨"", "", parseTop (writeList 0 (parseTop lines)), true⟩ : Node) =
    ⟨"", "", parseTop lines, true⟩
  rw [h]

/-! ### From line lists to text: joining `Write` output and re-splitting -/

theorem parseObjF_suffix : ∀ (f : Nat) (ls : List String),
    (parseObjF f ls).2 <:+ ls := by
  intro f
  induction f with
  | zero => intro ls; exact List.suffix_refl ls
  | succ f ih =>
    intro ls
    cases ls with
    | nil => exact List.nil_suffix
    | cons l rest =>
      by_cases h1 : trimGo l = "" ∨ hasPrefixGo (trimGo l) "//" = true
      · simp only [parseObjF, if_pos h1]
        exact (ih rest).trans (List.suffix_cons l rest)
      · by_cases h2 : trimGo l = "\x7d"
        · simp only [parseObjF, if_neg h1, if_pos h2]
          exact List.suffix_cons l rest
        · by_cases h3 : trimGo l = "\x7b"
          · simp only [parseObjF, if_neg h1, if_neg h2, if_pos h3]
            exact (ih rest).trans (List.suffix_cons l rest)
          · rcases hq : parseQuotedParts (trimGo l) with _ | ⟨k, _ | ⟨v, tl⟩⟩
            · simp only [parseObjF, if_neg h1, if_neg h2, if_neg h3, hq]
              exact (ih rest).trans (List.suffix_cons l rest)
            · cases rest with
              | nil =>
                simp only [parseObjF, if_neg h1, if_neg h2, if_neg h3, hq]
                exact List.nil_suffix
              | cons next rest2 =>
                by_cases h4 : trimGo next = "\x7b"
                · simp only [parseObjF, if_neg h1, if_neg h2, if_neg h3, hq,
                    if_pos h4]
                  exact ((ih (parseObjF f rest2).2).trans
                    ((ih rest2).trans ((List.suffix_cons next rest2).trans
                      (List.suffix_cons l (next :: rest2)))))
                · simp only [parseObjF, if_neg h1, if_neg h2, if_neg h3, hq,
                    if_neg h4]
                  exact (ih rest2).trans ((List.suffix_cons next rest2).trans
                    (List.suffix_cons l (next :: rest2)))
            · cases tl with
              | nil =>
                simp only [parseObjF, if_neg h1, if_neg h2, if_neg h3, hq]
                exact (ih rest).trans (List.suffix_cons l rest)
              | cons w tl2 =>
                simp only [parseObjF, if_neg h1, if_neg h2, if_neg h3, hq]
                exact (ih rest).trans (List.suffix_cons l rest)

theorem parseObj_suffix (ls : List String) : (parseObj ls).2 <:+ ls :=
  parseObjF_suffix ls.length ls

theorem trimGo_subset (ch : Char) (l : String) (h : ch ∉ l.data) :
    ch ∉ (trimGo l).data := by
  intro hmem
  apply h
  have h1 : ch ∈ (l.data.dropWhile isSpaceGo).reverse.dropWhile isSpaceGo :=
    List.mem_reverse.mp hmem
  have h2 : ch ∈ (l.data.dropWhile isSpaceGo).reverse :=
    (List.dropWhile_sublist _).subset h1
  have h3 : ch ∈ l.data.dropWhile isSpaceGo := List.mem_reverse.mp h2
  exact (List.dropWhile_sublist _).subset h3

theorem pqpAux_charFree (ch : Char) : ∀ (cs : List Char) (b : Bool)
    (cur : List Char), ch ∉ cs → ch ∉ cur →
    ∀ t ∈ pqpAux cs b cur, ch ∉ t.data := by
  intro cs
  induction cs with
  | nil =>
    intro b cur _ _ t ht
    exact absurd ht (List.not_mem_nil t)
  | cons c cs2 ih =>
    intro b cur hcs hcur t ht
    have hch : ch ∉ cs2 := fun hm => hcs (List.mem_cons_of_mem c hm)
    have hcc : ch ≠ c := fun hh => hcs (by rw [hh]; exact List.mem_cons_self _ _)
    by_cases hc : c = '"'
    · subst hc
      cases b with
      | true =>
        simp only [pqpAux, if_pos rfl] at ht
        rcases List.mem_cons.mp ht with rfl | ht2
        · exact hcur
        · exact ih false [] hch (List.not_mem_nil _) t ht2
      | false =>
        simp only [pqpAux, if_pos rfl] at ht
        exact ih true cur hch hcur t ht
    · cases b with
      | true =>
        simp only [pqpAux, if_neg hc, if_true] at ht
        refine ih true (cur ++ [c]) hch ?_ t ht
        intro hmem
        rcases List.mem_append.mp hmem with hmem2 | hmem2
        · exact hcur hmem2
        · exact hcc (List.mem_singleton.mp hmem2)
      | false =>
        simp only [pqpAux, if_neg hc] at ht
        exact ih false cur hch hcur t ht

theorem parseQuotedParts_charFree (ch : Char) (s : String) (h : ch ∉ s.data) :
    ∀ t ∈ parseQuotedParts s, ch ∉ t.data :=
  pqpAux_charFree ch s.data false [] h (List.not_mem_nil _)

/-- Trees whose keys and values avoid a given character (instantiated with
the newline character: such trees arise from parsing newline-free lines, and
their written text re-splits into exactly the written lines). -/
inductive CharFree (ch : Char) : Node → Prop where
  | mk (k v : String) (cs : List Node) (b : Bool)
      (hk : ch ∉ k.data) (hv : ch ∉ v.data)
      (hcs : ∀ x ∈ cs, CharFree ch x) : CharFree ch ⟨k, v, cs, b⟩

theorem CharFree_inv (ch : Char) (c : Node) (h : CharFree ch c) :
    ch ∉ c.key.data ∧ ch ∉ c.value.data ∧ ∀ x ∈ c.children, CharFree ch x := by
  cases h with
  | mk k v cs b hk hv hcs => exact ⟨hk, hv, hcs⟩

theorem parseObj_charFree (ch : Char) : ∀ (n : Nat) (ls : List String),
    ls.length ≤ n → (∀ l ∈ ls, ch ∉ l.data) →
    ∀ c ∈ (parseObj ls).1, CharFree ch c := by
  intro n
  induction n with
  | zero =>
    intro ls h _
    have : ls = [] := List.eq_nil_of_length_eq_zero (Nat.le_zero.mp h)
    subst this
    intro c hc
    exact absurd hc (List.not_mem_nil c)
  | succ n ih =>
    intro ls hlen hin
    cases ls with
    | nil =>
      intro c hc
      exact absurd hc (List.not_mem_nil c)
    | cons l rest =>
      have hr : rest.length ≤ n := by
        simp only [List.length_cons] at hlen; omega
      have hinr : ∀ x ∈ rest, ch ∉ x.data :=
        fun x hx => hin x (List.mem_cons_of_mem l hx)
      have hl : ch ∉ (trimGo l).data :=
        trimGo_subset ch l (hin l (List.mem_cons_self l rest))
      by_cases h1 : trimGo l = "" ∨ hasPrefixGo (trimGo l) "//" = true
      · rw [parseObj_skip l rest h1]
        exact ih rest hr hinr
      · by_cases h2 : trimGo l = "\x7d"
        · rw [parseObj_close l rest h2]
          intro c hc
          exact absurd hc (List.not_mem_nil c)
        · by_cases h3 : trimGo l = "\x7b"
          · rw [parseObj_open l rest h3]
            exact ih rest hr hinr
          · rcases hq : parseQuotedParts (trimGo l) with _ | ⟨k, _ | ⟨v, tl⟩⟩
            · rw [parseObj_none l rest h1 h2 h3 hq]
              exact ih rest hr hinr
            · have hk : ch ∉ k.data :=
                parseQuotedParts_charFree ch (trimGo l) hl k
                  (by rw [hq]; exact List.mem_cons_self k [])
              cases rest with
              | nil =>
                rw [parseObj_key_eof l k h1 h2 h3 hq]
                intro c hc
                exact absurd hc (List.not_mem_nil c)
              | cons next rest2 =>
                have hr2 : rest2.length ≤ n := by
                  simp only [List.length_cons] at hr; omega
                have hinr2 : ∀ x ∈ rest2, ch ∉ x.data :=
                  fun x hx => hinr x (List.mem_cons_of_mem next hx)
                by_cases h4 : trimGo next = "\x7b"
                · rw [parseObj_key_obj l next rest2 k h1 h2 h3 hq h4]
                  intro c hc
                  rcases List.mem_cons.mp hc with rfl | hc2
                  · exact CharFree.mk k "" _ true hk (by simp)
                      (ih rest2 hr2 hinr2)
                  · exact ih (parseObj rest2).2
                      (le_trans (parseObj_shrink rest2) hr2)
                      (fun x hx => hinr2 x ((parseObj_suffix rest2).subset hx))
                      c hc2
                · rw [parseObj_key_flat l next rest2 k h1 h2 h3 hq h4]
                  intro c hc
                  rcases List.mem_cons.mp hc with rfl | hc2
                  · exact CharFree.mk k "" [] false hk (by simp)
                      (fun x hx => absurd hx (List.not_mem_nil x))
                  · exact ih rest2 hr2 hinr2 c hc2
            · cases tl with
              | nil =>
                have hk : ch ∉ k.data :=
                  parseQuotedParts_charFree ch (trimGo l) hl k
                    (by rw [hq]; exact List.mem_cons_self k [v])
                have hv : ch ∉ v.data :=
                  parseQuotedParts_charFree ch (trimGo l) hl v
                    (by rw [hq];
                        exact List.mem_cons_of_mem k (List.mem_cons_self v []))
                rw [parseObj_kv l rest k v h1 h2 h3 hq]
                intro c hc
                rcases List.mem_cons.mp hc with rfl | hc2
                · exact CharFree.mk k v [] false hk hv
                    (fun x hx => absurd hx (List.not_mem_nil x))
                · exact ih rest hr hinr c hc2
              | cons w tl2 =>
                have hk : ch ∉ k.data :=
                  parseQuotedParts_charFree ch (trimGo l) hl k
                    (by rw [hq]; exact List.mem_cons_self k _)
                rw [parseObj_many l rest k v w tl2 h1 h2 h3 hq]
                intro c hc
                rcases List.mem_cons.mp hc with rfl | hc2
                · exact CharFree.mk k "" [] false hk (by simp)
                    (fun x hx => absurd hx (List.not_mem_nil x))
                · exact ih rest hr hinr c hc2

theorem parseTop_charFree (ch : Char) : ∀ (n : Nat) (ls : List String),
    ls.length ≤ n → (∀ l ∈ ls, ch ∉ l.data) →
    ∀ c ∈ parseTop ls, CharFree ch c := by
  intro n
  induction n with
  | zero =>
    intro ls h _
    have : ls = [] := List.eq_nil_of_length_eq_zero (Nat.le_zero.mp h)
    subst this
    intro c hc
    exact absurd hc (List.not_mem_nil c)
  | succ n ih =>
    intro ls hlen hin
    cases ls with
    | nil =>
      intro c hc
      exact absurd hc (List.not_mem_nil c)
    | cons l rest =>
      have hr : rest.length ≤ n := by
        simp only [List.length_cons] at hlen; omega
      have hinr : ∀ x ∈ rest, ch ∉ x.data :=
        fun x hx => hin x (List.mem_cons_of_mem l hx)
      have hl : ch ∉ (trimGo l).data :=
        trimGo_subset ch l (hin l (List.mem_cons_self l rest))
      by_cases h1 : trimGo l = "" ∨ hasPrefixGo (trimGo l) "//" = true
      · rw [parseTop_skip l rest h1]
        exact ih rest hr hinr
      · by_cases h2 : trimGo l = "\x7b"
        · rw [parseTop_open l rest h2]
          exact ih rest hr hinr
        · by_cases h3 : trimGo l = "\x7d"
          · rw [parseTop_close l rest h3]
            intro c hc
            exact absurd hc (List.not_mem_nil c)
          · rcases hq : parseQuotedParts (trimGo l) with _ | ⟨k, _ | ⟨v, tl⟩⟩
            · rw [parseTop_none l rest h1 h2 h3 hq]
              exact ih rest hr hinr
            · have hk : ch ∉ k.data :=
                parseQuotedParts_charFree ch (trimGo l) hl k
                  (by rw [hq]; exact List.mem_cons_self k [])
              cases rest with
              | nil =>
                rw [parseTop_key_eof l k h1 h2 h3 hq]
                intro c hc
                exact absurd hc (List.not_mem_nil c)
              | cons next rest2 =>
                have hr2 : rest2.length ≤ n := by
                  simp only [List.length_cons] at hr; omega
                have hinr2 : ∀ x ∈ rest2, ch ∉ x.data :=
                  fun x hx => hinr x (List.mem_cons_of_mem next hx)
                by_cases h4 : trimGo next = "\x7b"
                · rw [parseTop_key_obj l next rest2 k h1 h2 h3 hq h4]
                  intro c hc
                  rcases List.mem_cons.mp hc with rfl | hc2
                  · exact CharFree.mk k "" _ true hk (by simp)
                      (parseObj_charFree ch rest2.length rest2 le_rfl hinr2)
                  · exact ih (parseObj rest2).2
                      (le_trans (parseObj_shrink rest2) hr2)
                      (fun x hx => hinr2 x ((parseObj_suffix rest2).subset hx))
                      c hc2
                · rw [parseTop_key_flat l next rest2 k h1 h2 h3 hq h4]
                  intro c hc
                  rcases List.mem_cons.mp hc with rfl | hc2
                  · exact CharFree.mk k "" [] false hk (by simp)
                      (fun x hx => absurd hx (List.not_mem_nil x))
                  · exact ih rest2 hr2 hinr2 c hc2
            · cases tl with
              | nil =>
                have hk : ch ∉ k.data :=
                  parseQuotedParts_charFree ch (trimGo l) hl k
                    (by rw [hq]; exact List.mem_cons_self k [v])
                have hv : ch ∉ v.data :=
                  parseQuotedParts_charFree ch (trimGo l) hl v
                    (by rw [hq];
                        exact List.mem_cons_of_mem k (List.mem_cons_self v []))
                rw [parseTop_kv l rest k v h1 h2 h3 hq]
                intro c hc
                rcases List.mem_cons.mp hc with rfl | hc2
                · exact CharFree.mk k v [] false hk hv
                    (fun x hx => absurd hx (List.not_mem_nil x))
                · exact ih rest hr hinr c hc2
              | cons w tl2 =>
                have hk : ch ∉ k.data :=
                  parseQuotedParts_charFree ch (trimGo l) hl k
                    (by rw [hq]; exact List.mem_cons_self k _)
                rw [parseTop_many l rest k v w tl2 h1 h2 h3 hq]
                intro c hc
                rcases List.mem_cons.mp hc with rfl | hc2
                · exact CharFree.mk k "" [] false hk (by simp)
                    (fun x hx => absurd hx (List.not_mem_nil x))
                · exact ih rest hr hinr c hc2

theorem noNl_keyLine (d : Nat) (k : String) (hk : '\n' ∉ k.data) :
    '\n' ∉ (keyLine d k).data := by
  intro h
  have e1 : ¬ ('\n' : Char) = '\t' := by decide
  have e2 : ¬ ('\n' : Char) = '"' := by decide
  simp only [keyLine, List.mem_append, List.mem_cons, List.mem_replicate,
    List.mem_singleton, List.not_mem_nil, hk, e1, e2, false_and, and_false,
    or_false, false_or, or_self] at h

theorem noNl_leafLine (d : Nat) (k v : String) (hk : '\n' ∉ k.data)
    (hv : '\n' ∉ v.data) : '\n' ∉ (leafLine d k v).data := by
  intro h
  have e1 : ¬ ('\n' : Char) = '\t' := by decide
  have e2 : ¬ ('\n' : Char) = '"' := by decide
  simp only [leafLine, List.mem_append, List.mem_cons, List.mem_replicate,
    List.mem_singleton, List.not_mem_nil, hk, hv, e1, e2, false_and,
    and_false, or_false, false_or, or_self] at h

theorem noNl_braceOpenLine (d : Nat) : '\n' ∉ (braceOpenLine d).data := by
  intro h
  have e1 : ¬ ('\n' : Char) = '\t' := by decide
  have e3 : ¬ ('\n' : Char) = '\x7b' := by decide
  simp only [braceOpenLine, List.mem_append, List.mem_cons,
    List.mem_replicate, List.mem_singleton, List.not_mem_nil, e1, e3,
    false_and, and_false, or_false, false_or, or_self] at h

theorem noNl_braceCloseLine (d : Nat) : '\n' ∉ (braceCloseLine d).data := by
  intro h
  have e1 : ¬ ('\n' : Char) = '\t' := by decide
  have e3 : ¬ ('\n' : Char) = '\x7d' := by decide
  simp only [braceCloseLine, List.mem_append, List.mem_cons,
    List.mem_replicate, List.mem_singleton, List.not_mem_nil, e1, e3,
    false_and, and_false, or_false, false_or, or_self] at h

theorem writeList_noNl : ∀ (cs : List Node), (∀ c ∈ cs, CharFree '\n' c) →
    ∀ (d : Nat), ∀ l ∈ writeList d cs, '\n' ∉ l.data
  | [], _, d => by simp [writeList]
  | c :: cs2, hcs, d => by
    obtain ⟨hk, hv, hccs⟩ := CharFree_inv '\n' c (hcs c (List.mem_cons_self c cs2))
    have hcs2 : ∀ x ∈ cs2, CharFree '\n' x :=
      fun x hx => hcs x (List.mem_cons_of_mem c hx)
    intro l hl
    cases hbo : c.isObject with
    | false =>
      simp only [writeList, hbo, if_false, Bool.false_eq_true,
        List.singleton_append, List.mem_cons] at hl
      rcases hl with rfl | hl2
      · exact noNl_leafLine d c.key c.value hk hv
      · exact writeList_noNl cs2 hcs2 d l hl2
    | true =>
      simp only [writeList, hbo, if_true, List.cons_append, List.mem_cons,
        List.mem_append, List.mem_singleton, List.not_mem_nil, or_false] at hl
      rcases hl with rfl | rfl | (hl2 | rfl) | hl2
      · exact noNl_keyLine d c.key hk
      · exact noNl_braceOpenLine d
      · exact writeList_noNl c.children hccs (d + 1) l hl2
      · exact noNl_braceCloseLine d
      · exact writeList_noNl cs2 hcs2 d l hl2
termination_by cs => sizeOf cs
decreasing_by
  all_goals
    simp only [List.cons.sizeOf_spec]
    have h := sizeOf_children_lt c
    omega

/-- Model of `bufio.Scanner` with `ScanLines` over the writer's output text:
split at newline characters, with a final newline producing no extra empty
line.  (`ScanLines` also strips a `\r` preceding the `\n`; `Write`'s lines
always end in a quote or brace character, never `\r`, so this is not
modelled.) -/
def scanLinesAux : List Char → List Char → List String
  | [], [] => []
  | [], c :: cur => [⟨(c :: cur).reverse⟩]
  | c :: cs, cur =>
    if c = '\n' then ⟨cur.reverse⟩ :: scanLinesAux cs []
    else scanLinesAux cs (c :: cur)

/-- The lines delivered by the scanner from a text. -/
def scanLinesGo (s : String) : List String := scanLinesAux s.data []

/-- The characters of a line list joined as `Write` emits them: every
`Fprintf` format of the source ends in `\n`. -/
def joinLinesData (ls : List String) : List Char :=
  (ls.map (fun l => l.data ++ ['\n'])).flatten

/-- The full text produced by `Write(w, node, indent)`. -/
def writeText (node : Node) (indent : Nat) : String :=
  ⟨joinLinesData (write node indent)⟩

theorem scanLinesAux_skip : ∀ (xs : List Char), '\n' ∉ xs →
    ∀ (rest cur : List Char),
      scanLinesAux (xs ++ rest) cur = scanLinesAux rest (xs.reverse ++ cur) := by
  intro xs
  induction xs with
  | nil =>
    intro _ rest cur
    simp
  | cons x xs2 ih =>
    intro hxs rest cur
    have hx : ¬ x = '\n' := fun h => hxs (by rw [h]; exact List.mem_cons_self _ _)
    have hxs2 : '\n' ∉ xs2 := fun hm => hxs (List.mem_cons_of_mem x hm)
    rw [List.cons_append]
    rw [show scanLinesAux (x :: (xs2 ++ rest)) cur =
      scanLinesAux (xs2 ++ rest) (x :: cur) from by
        simp only [scanLinesAux, if_neg hx]]
    rw [ih hxs2 rest (x :: cur)]
    simp [List.reverse_cons, List.append_assoc]

theorem scanLines_join : ∀ (ls : List String), (∀ l ∈ ls, '\n' ∉ l.data) →
    scanLinesAux (joinLinesData ls) [] = ls := by
  intro ls
  induction ls with
  | nil => intro _; rfl
  | cons l ls2 ih =>
    intro h
    have hl : '\n' ∉ l.data := h l (List.mem_cons_self l ls2)
    have h2 : ∀ x ∈ ls2, '\n' ∉ x.data :=
      fun x hx => h x (List.mem_cons_of_mem l hx)
    rw [show joinLinesData (l :: ls2) = l.data ++ ('\n' :: joinLinesData ls2)
      from by simp [joinLinesData, List.flatten, List.append_assoc]]
    rw [scanLinesAux_skip l.data hl ('\n' :: joinLinesData ls2) []]
    rw [show scanLinesAux ('\n' :: joinLinesData ls2) (l.data.reverse ++ []) =
      ⟨(l.data.reverse ++ []).reverse⟩ :: scanLinesAux (joinLinesData ls2) []
      from by simp only [scanLinesAux, if_pos rfl, if_true]]
    rw [ih h2]
    simp

/-- C1: round trip.  For every input whose lines are free of embedded
newlines (as delivered by any real scanner), writing the parsed tree with
`Write` at depth 0 and re-parsing the resulting text through the scanner
yields a tree deep-equal to the original: every key, value, `isObject` flag
and the order of children are preserved. -/
theorem write_text_roundtrip (lines : List String)
    (h : ∀ l ∈ lines, '\n' ∉ l.data) :
    parse (scanLinesGo (writeText (parse lines) 0)) = parse lines := by
  have hcf : ∀ c ∈ parseTop lines, CharFree '\n' c :=
    parseTop_charFree '\n' lines.length lines le_rfl h
  have hw : ∀ l ∈ write (parse lines) 0, '\n' ∉ l.data :=
    writeList_noNl (parseTop lines) hcf 0
  have hsplit : scanLinesGo (writeText (parse lines) 0) =
      write (parse lines) 0 :=
    scanLines_join (write (parse lines) 0) hw
  rw [hsplit]
  exact write_parse_roundtrip lines

/-- Closed witness for `write_text_roundtrip` at the spec's own end-to-end
example input: the newline-freedom hypothesis is discharged by evaluation. -/
theorem write_text_roundtrip_witness :
    parse (scanLinesGo (writeText (parse ["\"root\"", "\x7b", "\"apps\"",
      "\x7b", "\"123\"", "\x7b", "\"LaunchOptions\"\t\t\"old\"", "\x7d",
      "\x7d", "\x7d"]) 0)) =
    parse ["\"root\"", "\x7b", "\"apps\"", "\x7b", "\"123\"", "\x7b",
      "\"LaunchOptions\"\t\t\"old\"", "\x7d", "\x7d", "\x7d"] :=
  write_text_roundtrip ["\"root\"", "\x7b", "\"apps\"", "\x7b", "\"123\"",
    "\x7b", "\"LaunchOptions\"\t\t\"old\"", "\x7d", "\x7d", "\x7d"]
    (by decide)
